import Mathlib

/-!
Verification development for the ditiear content-addressed snapshot/diff/patch
tool.  The Rust sources (src/hash.rs, src/common.rs, src/diff.rs, src/patch.rs)
are shallowly embedded below: files are byte lists (`List Nat`, each element
< 256), the filesystem tree handed to the snapshot builders is an inductive
tree whose list order models the `read_dir` enumeration order, and every
fallible or possibly diverging loop is modelled with explicit fuel returning
`Option`.
-/

namespace Ditiear

/-! ### 64-bit arithmetic helpers (Rust `u64` semantics, as `Nat` mod 2^64) -/

def M64 : Nat := 2 ^ 64

def add64 (a b : Nat) : Nat := (a + b) % M64

def mul64 (a b : Nat) : Nat := (a * b) % M64

def xor64 (a b : Nat) : Nat := Nat.xor a b

def rotl64 (x r : Nat) : Nat := Nat.lor ((x <<< r) % M64) (x >>> (64 - r))

/-! ### xxHash64 (the `twox_hash::XxHash64` hasher used by src/hash.rs,
seed 0, modelled from the published XXH64 algorithm; streaming `write`
calls concatenate, so the model hashes the whole byte list at once) -/

def xxPrime1 : Nat := 11400714785074694791

def xxPrime2 : Nat := 14029467366897019727

def xxPrime3 : Nat := 1609587929392839161

def xxPrime4 : Nat := 9650029242287828579

def xxPrime5 : Nat := 2870177450012600261

def xxRound (acc lane : Nat) : Nat :=
  mul64 (rotl64 (add64 acc (mul64 lane xxPrime2)) 31) xxPrime1

def xxMergeRound (acc v : Nat) : Nat :=
  add64 (mul64 (xor64 acc (xxRound 0 v)) xxPrime1) xxPrime4

/-- Little-endian integer value of a byte list (first byte least significant). -/
def readLE (l : List Nat) : Nat := l.foldr (fun b acc => acc * 256 + b) 0

def xxStripes : Nat → List Nat → Nat × Nat × Nat × Nat → (Nat × Nat × Nat × Nat) × List Nat
  | 0, l, accs => (accs, l)
  | fuel + 1, l, (a1, a2, a3, a4) =>
    if 32 ≤ l.length then
      let l1 := readLE (l.take 8)
      let l2 := readLE ((l.drop 8).take 8)
      let l3 := readLE ((l.drop 16).take 8)
      let l4 := readLE ((l.drop 24).take 8)
      xxStripes fuel (l.drop 32) (xxRound a1 l1, xxRound a2 l2, xxRound a3 l3, xxRound a4 l4)
    else ((a1, a2, a3, a4), l)

def xxTail8 : Nat → List Nat → Nat → Nat × List Nat
  | 0, l, acc => (acc, l)
  | fuel + 1, l, acc =>
    if 8 ≤ l.length then
      let lane := readLE (l.take 8)
      xxTail8 fuel (l.drop 8) (add64 (mul64 (rotl64 (xor64 acc (xxRound 0 lane)) 27) xxPrime1) xxPrime4)
    else (acc, l)

def xxTail1 : Nat → List Nat → Nat → Nat
  | 0, _, acc => acc
  | fuel + 1, l, acc =>
    match l with
    | [] => acc
    | b :: rest =>
      xxTail1 fuel rest (mul64 (rotl64 (xor64 acc (mul64 b xxPrime5)) 11) xxPrime1)

def xxAvalanche (h : Nat) : Nat :=
  let h := xor64 h (h >>> 33)
  let h := mul64 h xxPrime2
  let h := xor64 h (h >>> 29)
  let h := mul64 h xxPrime3
  xor64 h (h >>> 32)

/-- One-shot XXH64 with seed 0 over a byte list. -/
def xxh64 (bytes : List Nat) : Nat :=
  let len := bytes.length
  let (acc, rest) :=
    if 32 ≤ len then
      let a1 := add64 (add64 0 xxPrime1) xxPrime2
      let a2 := add64 0 xxPrime2
      let a3 := 0
      let a4 := (M64 - xxPrime1) % M64
      let ((v1, v2, v3, v4), rest) := xxStripes len bytes (a1, a2, a3, a4)
      let h := add64 (add64 (add64 (rotl64 v1 1) (rotl64 v2 7)) (rotl64 v3 12)) (rotl64 v4 18)
      let h := xxMergeRound h v1
      let h := xxMergeRound h v2
      let h := xxMergeRound h v3
      let h := xxMergeRound h v4
      (h, rest)
    else (add64 0 xxPrime5, bytes)
  let h := add64 acc len
  let (h, rest) := xxTail8 rest.length rest h
  let (h, rest) :=
    if 4 ≤ rest.length then
      (add64 (mul64 (rotl64 (xor64 h (mul64 (readLE (rest.take 4)) xxPrime1)) 23) xxPrime2) xxPrime3,
        rest.drop 4)
    else (h, rest)
  let h := xxTail1 rest.length rest h
  xxAvalanche h

/-! ### Lowercase minimal hex rendering (Rust `format!("{:x}", _)`) -/

def hexDigit (n : Nat) : Char :=
  if n < 10 then Char.ofNat (48 + n) else Char.ofNat (87 + n)

def hexCharsAux : Nat → Nat → List Char → List Char
  | 0, _, acc => acc
  | fuel + 1, n, acc =>
    if n = 0 then acc
    else hexCharsAux fuel (n / 16) (hexDigit (n % 16) :: acc)

/-- Minimal-width lowercase hex digits of `n` (with `"0"` for zero),
matching Rust's `{:x}` formatting used for every hash in the system. -/
def hexMin (n : Nat) : String :=
  if n = 0 then "0" else String.mk (hexCharsAux 64 n [])

/-! ### UTF-8 encoding of strings (Rust strings are UTF-8 byte sequences) -/

def utf8Char (c : Char) : List Nat :=
  let n := c.toNat
  if n < 0x80 then [n]
  else if n < 0x800 then [0xC0 + n / 64, 0x80 + n % 64]
  else if n < 0x10000 then [0xE0 + n / 4096, 0x80 + (n / 64) % 64, 0x80 + n % 64]
  else [0xF0 + n / 262144, 0x80 + (n / 4096) % 64, 0x80 + (n / 64) % 64, 0x80 + n % 64]

def utf8Bytes (l : List Char) : List Nat := l.flatMap utf8Char

def strBytes (s : String) : List Nat := utf8Bytes s.data

/-- Hash of a byte list rendered as in the Rust sources:
`format!("{:x}", hasher.finish())`. -/
def bytesHashHex (bytes : List Nat) : String := hexMin (xxh64 bytes)

/-! ## src/hash.rs — snapshot builders

The source directory handed to `create_directory_blob_file` /
`create_directory_blob_file_rec` is modelled as a list of entries whose list
order is the `fs::read_dir` enumeration order.  The builders' writes into the
content-addressed store do not influence any returned hash (they are
put-if-absent copies of already-hashed content), so the models record, as the
observable write trace, the manifest writes: each `(manifest hash, record
list)` pair produced right before `File::create`/`write_all` of a manifest.
-/

namespace HashRs

inductive FsEntry where
  | file (name : String) (content : List Nat)
  | dir (name : String) (entries : List FsEntry)
deriving Repr, BEq

def FsEntry.name : FsEntry → String
  | .file n _ => n
  | .dir n _ => n

/-- `enum DiffBlobType` of src/hash.rs (the `Patch` variant exists in the
source and is never produced). -/
inductive DiffBlobType where
  | Directory
  | File
  | Patch
deriving Repr, DecidableEq

def DiffBlobType.str : DiffBlobType → String
  | .Directory => "directory"
  | .File => "file"
  | .Patch => "patch"

/-- `struct DiffBlob` of src/hash.rs. -/
structure DiffBlob where
  name : String
  hash : String
  blobType : DiffBlobType
deriving Repr, DecidableEq

/-- The `Display` impl of src/hash.rs: `"{} {} {}\n"`. -/
def DiffBlob.display (b : DiffBlob) : String :=
  b.name ++ " " ++ b.hash ++ " " ++ b.blobType.str ++ "\n"

/-- Lexicographic order on char lists by code point; on the ASCII hex hashes
this system sorts it coincides with Rust's byte-wise `str::cmp`. -/
def charListLe : List Char → List Char → Bool
  | [], _ => true
  | _ :: _, [] => false
  | a :: as, b :: bs =>
    if a.toNat < b.toNat then true
    else if b.toNat < a.toNat then false
    else charListLe as bs

/-- `a.hash.cmp(&b.hash)` as a `≤` test. -/
def hashLe (a b : DiffBlob) : Prop := charListLe a.hash.data b.hash.data = true

instance : DecidableRel hashLe := fun a b => by
  unfold hashLe; infer_instance

/-- `entries.sort_by(|a, b| a.hash.cmp(&b.hash))`: Rust's slice sort is a
stable sort, so its output is uniquely determined by the key order and the
input order; insertion sort on `≤` is stable and is therefore an exact model. -/
def sortByHash (l : List DiffBlob) : List DiffBlob :=
  List.insertionSort hashLe l

/-- `calculate_file_hash`: stream the file bytes through `XxHash64` (chunking
does not change the digest) and render with `{:x}`. -/
def calculateFileHash (content : List Nat) : String := bytesHashHex content

/-- Serialized manifest bytes: concatenation of the records' `Display` forms. -/
def manifestString (l : List DiffBlob) : String :=
  String.join (l.map DiffBlob.display)

mutual
/-- The entry loop of `create_directory_blob_file_rec` (src/hash.rs:144-178):
walk the `read_dir` entries in order, skipping `.DS_Store`, hashing files and
recursing into subdirectories; returns the collected `blobs` vector together
with the trace of manifest writes performed by the recursive calls. -/
def recList : List FsEntry → List DiffBlob × List (String × List DiffBlob)
  | [] => ([], [])
  | e :: rest =>
    if e.name = ".DS_Store" then recList rest
    else ((recEntry e).1 :: (recList rest).1, (recEntry e).2 ++ (recList rest).2)

/-- One entry of the loop body: a file is hashed; a subdirectory is built by
the recursive call `create_directory_blob_file_rec(to_path, path)` — collect
its records, sort them by `hash`, hash the concatenated `Display` forms and
write the manifest (src/hash.rs:150-177, 180-205). -/
def recEntry : FsEntry → DiffBlob × List (String × List DiffBlob)
  | .file n c => (⟨n, calculateFileHash c, .File⟩, [])
  | .dir n es =>
    (⟨n, bytesHashHex (strBytes (manifestString (sortByHash (recList es).1))), .Directory⟩,
      (recList es).2 ++
        [(bytesHashHex (strBytes (manifestString (sortByHash (recList es).1))),
          sortByHash (recList es).1)])
end

/-- `create_directory_blob_file_rec` on one directory's entry list
(src/hash.rs:138-206): collect records, sort them by `hash`, hash the
concatenated `Display` forms, write the manifest, return its hash.  Note the
function unconditionally emits a record/manifest even for an empty entry
list (the hash of the empty byte string). -/
def recDir (es : List FsEntry) : String × List (String × List DiffBlob) :=
  (bytesHashHex (strBytes (manifestString (sortByHash (recList es).1))),
    (recList es).2 ++
      [(bytesHashHex (strBytes (manifestString (sortByHash (recList es).1))),
        sortByHash (recList es).1)])

/-- Root manifest hash returned by `create_directory_blob_file_rec` for a
source directory with entry list `es`. -/
def recRoot (es : List FsEntry) : String := (recDir es).1

/-- Manifest write trace of the recursive builder. -/
def recManifests (es : List FsEntry) : List (String × List DiffBlob) := (recDir es).2

/-! ### The iterative builder `create_directory_blob_file` (src/hash.rs:55-136)

Paths (`PathBuf` values relative to `from_path`) are segment lists; the root
is `[]`.  The `entries_stack` `Vec` is kept reversed (list head = `Vec` top),
so `pop()` is `head`, `push(x)` is `x :: ·` and `append(tem)` is
`tem.reverse ++ ·`.  `resolved` is an association list with insert-overwrite,
modelling the `HashMap<PathBuf, DiffBlob>`. -/

abbrev FsPath := List String

def lookupEntries (root : List FsEntry) : FsPath → Option (List FsEntry)
  | [] => some root
  | seg :: rest =>
    match root.find? (fun e => e.name = seg) with
    | some (.dir _ es) => lookupEntries es rest
    | _ => none

def resolvedGet (resolved : List (FsPath × DiffBlob)) (p : FsPath) : Option DiffBlob :=
  match resolved.find? (fun q => q.1 = p) with
  | some q => some q.2
  | none => none

def resolvedInsert (resolved : List (FsPath × DiffBlob)) (p : FsPath) (b : DiffBlob) :
    List (FsPath × DiffBlob) :=
  (p, b) :: resolved.filter (fun q => q.1 ≠ p)

structure IterState where
  entries : List DiffBlob
  tem : List (FsPath × List DiffBlob)
  needUpdate : Bool
  allResolved : Bool
  stack : List (FsPath × List DiffBlob)
  resolved : List (FsPath × DiffBlob)
  manifests : List (String × List DiffBlob)
deriving Repr

/-- The `for entry in fs::read_dir(&parent_path)` body (src/hash.rs:63-103).
A resolved entry is skipped (`continue`) without touching `entries`; an
unresolved directory is parked on `tem_entries_stack`; an unresolved file is
hashed, recorded in `resolved` and appended to `entries`; afterwards (still
inside the loop body) the parent state is re-pushed and `tem_entries_stack`
is drained onto the stack. -/
def iterEntryLoop (parentPath : FsPath) : List FsEntry → IterState → IterState
  | [], st => st
  | e :: rest, st =>
    if e.name = ".DS_Store" then iterEntryLoop parentPath rest st
    else
      let path := parentPath ++ [e.name]
      match resolvedGet st.resolved path with
      | some _ => iterEntryLoop parentPath rest st
      | none =>
        let st :=
          match e with
          | .dir _ _ =>
            { st with tem := st.tem ++ [(path, [])], allResolved := false }
          | .file n c =>
            let blob : DiffBlob := ⟨n, calculateFileHash c, .File⟩
            { st with
              resolved := resolvedInsert st.resolved path blob
              entries := st.entries ++ [blob]
              needUpdate := true }
        let st :=
          if st.tem ≠ [] ∨ st.needUpdate then
            let st := { st with stack := (parentPath, st.entries) :: st.stack }
            if st.tem ≠ [] then
              { st with stack := st.tem.reverse ++ st.stack, tem := [] }
            else st
          else st
        iterEntryLoop parentPath rest st

/-- One iteration of the `while let Some((parent_path, entries)) = pop()`
loop: run the entry loop, then, when every entry was already resolved and the
entry list is non-empty, sort by hash, hash/write the manifest and record the
parent as resolved (src/hash.rs:104-129). -/
def iterStep (root : List FsEntry) (rootName : String) (parentPath : FsPath)
    (entries0 : List DiffBlob)
    (stack : List (FsPath × List DiffBlob)) (resolved : List (FsPath × DiffBlob))
    (manifests : List (String × List DiffBlob)) :
    Option (List (FsPath × List DiffBlob) × List (FsPath × DiffBlob) ×
      List (String × List DiffBlob)) :=
  match lookupEntries root parentPath with
  | none => none
  | some es =>
    let st := iterEntryLoop parentPath es
      ⟨entries0, [], false, true, stack, resolved, manifests⟩
    if st.allResolved ∧ st.entries ≠ [] then
      let sorted := sortByHash st.entries
      let h := bytesHashHex (strBytes (manifestString sorted))
      let parentName := match parentPath.getLast? with
        | some n => n
        | none => rootName
      some (st.stack,
        resolvedInsert st.resolved parentPath ⟨parentName, h, .Directory⟩,
        st.manifests ++ [(h, sorted)])
    else
      some (st.stack, st.resolved, st.manifests)

/-- The main loop of `create_directory_blob_file`, with fuel; `none` means
the loop has not terminated within `fuel` iterations. -/
def iterLoop (root : List FsEntry) (rootName : String) :
    Nat → List (FsPath × List DiffBlob) → List (FsPath × DiffBlob) →
    List (String × List DiffBlob) →
    Option (Option (List (FsPath × DiffBlob) × List (String × List DiffBlob)))
  | 0, _, _, _ => none
  | _ + 1, [], resolved, manifests => some (some (resolved, manifests))
  | fuel + 1, (parentPath, entries0) :: rest, resolved, manifests =>
    match iterStep root rootName parentPath entries0 rest resolved manifests with
    | none => some none
    | some (stack, resolved, manifests) => iterLoop root rootName fuel stack resolved manifests

/-- `create_directory_blob_file(to_path, from_path)` for a source directory
named `rootName` with entry list `root`: run the loop from the initial stack
`[(from_path, [])]`, then look the root path up in `resolved` (src/hash.rs:
131-135); the inner `none` is the `Err` case (I/O error or "not found"). -/
def iterBuild (root : List FsEntry) (rootName : String) (fuel : Nat) :
    Option (Option (String × List (String × List DiffBlob))) :=
  match iterLoop root rootName fuel [([], [])] [] [] with
  | none => none
  | some none => some none
  | some (some (resolved, manifests)) =>
    match resolvedGet resolved [] with
    | some b => some (some (b.hash, manifests))
    | none => some none

/-- Root hash returned by the iterative builder. -/
def iterRoot (root : List FsEntry) (rootName : String) (fuel : Nat) : Option (Option String) :=
  match iterBuild root rootName fuel with
  | none => none
  | some none => some none
  | some (some (h, _)) => some (some h)

/-- The record contributed by one non-filtered entry to its parent's record
list (file: hashed content; directory: the hash returned by the recursive
build). -/
def entryBlob : FsEntry → DiffBlob
  | .file n c => ⟨n, calculateFileHash c, .File⟩
  | .dir n es => ⟨n, recRoot es, .Directory⟩

/-- The unsorted record list collected by the recursive builder's entry
loop. -/
def blobsOf (es : List FsEntry) : List DiffBlob := (recList es).1

/-- `pairwiseDistinctHash l` — no two records of `l` share a hash. -/
def pairwiseDistinctHash : List DiffBlob → Bool
  | [] => true
  | b :: rest => rest.all (fun x => x.hash ≠ b.hash) && pairwiseDistinctHash rest

mutual
def distinctList : List FsEntry → Bool
  | [] => true
  | e :: rest => distinctEntry e && distinctList rest

def distinctEntry : FsEntry → Bool
  | .file _ _ => true
  | .dir n es =>
    if n = ".DS_Store" then true
    else pairwiseDistinctHash (blobsOf es) && distinctList es
end

/-- At every level of the tree, the records collected for one directory have
pairwise distinct hashes (the condition under which a stable sort by hash is
insensitive to the input order). -/
def distinctDeep (es : List FsEntry) : Bool :=
  pairwiseDistinctHash (blobsOf es) && distinctList es

mutual
/-- Two filesystem entries with the same contents, up to the enumeration
order of directory entries. -/
inductive SameEntry : FsEntry → FsEntry → Prop where
  | file (n : String) (c : List Nat) : SameEntry (.file n c) (.file n c)
  | dir (n : String) {es es' : List FsEntry} : SameDir es es' → SameEntry (.dir n es) (.dir n es')

/-- Two `read_dir` enumerations of the same directory contents: a permutation
(in insertion form) pairing entries related by `SameEntry`. -/
inductive SameDir : List FsEntry → List FsEntry → Prop where
  | nil : SameDir [] []
  | cons {a b : FsEntry} {l r₁ r₂ : List FsEntry} :
      SameEntry a b → SameDir l (r₁ ++ r₂) → SameDir (a :: l) (r₁ ++ b :: r₂)
end

end HashRs

/-! ## src/common.rs — the blob record codec

`DiffBlob::fmt` and `DiffBlob::from_str` work on Rust strings, whose byte
indexing (`split_at`, slicing) panics when an index is out of bounds or not on
a UTF-8 character boundary.  Strings are modelled as `List Char` together with
the UTF-8 byte width of each character; the byte-indexed operations return
`none` exactly when the Rust operation would panic. -/

namespace Common

/-- UTF-8 byte width of a character. -/
def charWidth (c : Char) : Nat := (utf8Char c).length

/-- UTF-8 byte length of a string (Rust `str::len`). -/
def byteLen (l : List Char) : Nat := (utf8Bytes l).length

/-- Rust `char::is_whitespace` (the Unicode `White_Space` property),
used by `str::trim`. -/
def isRustWhitespace (c : Char) : Bool :=
  [0x9, 0xA, 0xB, 0xC, 0xD, 0x20, 0x85, 0xA0, 0x1680].contains c.toNat ∨
    (0x2000 ≤ c.toNat ∧ c.toNat ≤ 0x200A) ∨
    [0x2028, 0x2029, 0x202F, 0x205F, 0x3000].contains c.toNat

/-- Rust `str::trim`. -/
def trim (l : List Char) : List Char :=
  ((l.dropWhile isRustWhitespace).reverse.dropWhile isRustWhitespace).reverse

/-- Rust `str::split_at(n)` with `n` a byte index: `none` when `n` is past
the end or inside a multi-byte character (the cases in which Rust panics). -/
def splitAtByte : List Char → Nat → Option (List Char × List Char)
  | l, 0 => some ([], l)
  | [], _ + 1 => none
  | c :: rest, n + 1 =>
    if charWidth c ≤ n + 1 then
      match splitAtByte rest (n + 1 - charWidth c) with
      | some (a, b) => some (c :: a, b)
      | none => none
    else none

/-- Rust byte slicing `&l[a..b]` (for `a ≤ b`): `none` on the panicking cases. -/
def sliceBytes (l : List Char) (a b : Nat) : Option (List Char) :=
  match splitAtByte l a with
  | none => none
  | some (_, rest) =>
    match splitAtByte rest (b - a) with
    | some (x, _) => some x
    | none => none

/-- Rust `&l[1..]`: `none` when the string is empty or starts with a
multi-byte character (the panicking cases). -/
def dropByte1 (l : List Char) : Option (List Char) :=
  match l with
  | [] => none
  | c :: rest => if charWidth c = 1 then some rest else none

def hexVal (c : Char) : Option Nat :=
  if '0' ≤ c ∧ c ≤ '9' then some (c.toNat - 48)
  else if 'a' ≤ c ∧ c ≤ 'f' then some (c.toNat - 87)
  else if 'A' ≤ c ∧ c ≤ 'F' then some (c.toNat - 64 - 1)
  else none

def parseHexAux : List Char → Nat → Option Nat
  | [], acc => some acc
  | c :: rest, acc =>
    match hexVal c with
    | some v => parseHexAux rest (acc * 16 + v)
    | none => none

def parseHexDigits : List Char → Option Nat
  | [] => none
  | l => parseHexAux l 0

/-- Rust `usize::from_str_radix(s, 16)`: optional sign, then hex digits
(`"-0"` parses to `0`, any other negative value is an error). -/
def fromStrRadix16 (l : List Char) : Option Nat :=
  match l with
  | [] => none
  | c :: rest =>
    if c = '+' then parseHexDigits rest
    else if c = '-' then
      match parseHexDigits rest with
      | some 0 => some 0
      | _ => none
    else parseHexDigits l

/-- `enum DiffBlobType` of src/common.rs. -/
inductive DiffBlobType where
  | Directory
  | File
deriving Repr, DecidableEq

/-- The `Display` impl for `DiffBlobType`. -/
def DiffBlobType.str : DiffBlobType → List Char
  | .Directory => "directory".data
  | .File => "file".data

/-- `struct DiffBlob` of src/common.rs. -/
structure DiffBlob where
  name : List Char
  hash : List Char
  blobType : DiffBlobType
deriving Repr, DecidableEq

/-- Rust `format!("{:02x}", n)`: at least two lowercase hex digits. -/
def hex02 (n : Nat) : List Char :=
  if n < 256 then [hexDigit (n / 16), hexDigit (n % 16)] else hexCharsAux 64 n []

/-- `DiffBlob::fmt` (src/common.rs:92-103):
`"{} {} {} {:02x}{:02x}{:02x}\n"` where the three length fields are the BYTE
lengths of `name`, `hash` and the kind word. -/
def DiffBlob.display (b : DiffBlob) : List Char :=
  b.name ++ [' '] ++ b.hash ++ [' '] ++ b.blobType.str ++ [' '] ++
    hex02 (byteLen b.name) ++ hex02 (byteLen b.hash) ++ hex02 (byteLen b.blobType.str) ++ ['\n']

/-- `enum DeserializeError` of src/common.rs. -/
inductive DeserializeError where
  | InvalidLength
  | InvalidNameLengthInfo
  | InvalidHashLengthInfo
  | InvalidTypeLengthInfo
  | InvalidTotalLength
  | InvalidType
deriving Repr, DecidableEq

/-- Outcome of running `DiffBlob::from_str`: a value, a `DeserializeError`,
or a Rust panic (out-of-bounds / non-boundary byte index). -/
inductive ParseOutcome where
  | panicked
  | err (e : DeserializeError)
  | ok (b : DiffBlob)
deriving Repr, DecidableEq

/-- `DiffBlob::from_str` (src/common.rs:116-150), byte-accurate: trim, split
off the last 6 bytes, parse the three 2-hex length fields, check the total
length, then split `name | SP | hash | SP | kind` at the declared byte
offsets.  Every Rust `split_at`/slice that would panic yields `.panicked`. -/
def fromStr (input : List Char) : ParseOutcome :=
  let s := trim input
  let len := byteLen s
  if len < 6 then .err .InvalidLength
  else
    match splitAtByte s (len - 6) with
    | none => .panicked
    | some (s, lenPart) =>
      match sliceBytes lenPart 0 2, sliceBytes lenPart 2 4, sliceBytes lenPart 4 6 with
      | some d1, some d2, some d3 =>
        match fromStrRadix16 d1 with
        | none => .err .InvalidNameLengthInfo
        | some nameLength =>
          match fromStrRadix16 d2 with
          | none => .err .InvalidHashLengthInfo
          | some hashLength =>
            match fromStrRadix16 d3 with
            | none => .err .InvalidTypeLengthInfo
            | some typeLength =>
              if len < nameLength + hashLength + typeLength + 3 then .err .InvalidTotalLength
              else
                match splitAtByte s nameLength with
                | none => .panicked
                | some (name, rest) =>
                  match dropByte1 rest with
                  | none => .panicked
                  | some rest =>
                    match splitAtByte rest hashLength with
                    | none => .panicked
                    | some (hash, rest) =>
                      match dropByte1 rest with
                      | none => .panicked
                      | some rest =>
                        match splitAtByte rest typeLength with
                        | none => .panicked
                        | some (blobTypeStr, _) =>
                          if blobTypeStr = "directory".data then
                            .ok ⟨name, hash, .Directory⟩
                          else if blobTypeStr = "file".data then
                            .ok ⟨name, hash, .File⟩
                          else .err .InvalidType
      | _, _, _ => .panicked

/-- The front end of `from_str` up to the three length fields: the lengths
the parser extracts from the 6-byte trailer, when it gets that far. -/
def declaredLengths (input : List Char) : Option (Nat × Nat × Nat) :=
  let s := trim input
  let len := byteLen s
  if len < 6 then none
  else
    match splitAtByte s (len - 6) with
    | none => none
    | some (_, lenPart) =>
      match sliceBytes lenPart 0 2, sliceBytes lenPart 2 4, sliceBytes lenPart 4 6 with
      | some d1, some d2, some d3 =>
        match fromStrRadix16 d1, fromStrRadix16 d2, fromStrRadix16 d3 with
        | some a, some b, some c => some (a, b, c)
        | _, _, _ => none
      | _, _, _ => none

end Common

/-! ## src/diff.rs — the tree differ

`compare_blob_files` reads manifests out of the content-addressed store; the
store is modelled as an association list from hash to manifest file content.
(`path_from_hash` is injective in the hash, so keying the store by the hash
itself is equivalent to keying it by the sharded path.)  Rust's `HashMap`
iteration order is unspecified; the model iterates maps in insertion order —
every property proved below is insensitive to that order.  All loops carry
fuel (`none` = no termination within fuel, which covers a cyclic store). -/

namespace DiffRs

/-- Rust `str::lines`: split on `\n`, strip one `\r` before each `\n`,
no trailing empty line. -/
def stripCR (l : List Char) : List Char :=
  match l.reverse with
  | '\r' :: rest => rest.reverse
  | _ => l

def linesAux : List Char → List Char → List (List Char)
  | [], cur => if cur = [] then [] else [cur]
  | '\n' :: rest, cur => stripCR cur :: linesAux rest []
  | c :: rest, cur => linesAux rest (cur ++ [c])

def lines (l : List Char) : List (List Char) := linesAux l []

/-- `enum DiffFileType` of src/diff.rs, with its `Display` form. -/
inductive DiffFileType where
  | Directory
  | File
deriving Repr, DecidableEq

def DiffFileType.str : DiffFileType → String
  | .Directory => "Directory"
  | .File => "File"

/-- `enum DiffCollectionType` of src/diff.rs. -/
inductive DiffCollectionType where
  | Add (ty : DiffFileType) (value : String)
  | Delete (ty : DiffFileType) (value : String)
  | Modify (ty : DiffFileType) (old new : String)
deriving Repr, DecidableEq

/-- `DiffCollectionType::movement_unique_hash` (src/diff.rs:144-153):
`Some(value ++ Display(type))` for `Add`/`Delete`, `None` for `Modify`. -/
def movementUniqueHash : DiffCollectionType → Option String
  | .Add ty v => some (v ++ ty.str)
  | .Delete ty v => some (v ++ ty.str)
  | .Modify _ _ _ => none

/-- `DiffBlob::unique_name` (src/diff.rs:191-196): `name ++ kind_word`. -/
def uniqueName (b : Common.DiffBlob) : String := String.mk (b.name ++ b.blobType.str)

/-- Outcome of a fallible differ computation: a Rust panic (from
`DiffBlob::from_str`), an I/O error, a parse error, or a value. -/
inductive RunResult (α : Type) where
  | panicked
  | ioErr
  | parseErr
  | ok (a : α)
deriving Repr, DecidableEq

def casGet (cas : List (String × String)) (h : String) : Option String :=
  match cas.find? (fun q => q.1 = h) with
  | some q => some q.2
  | none => none

/-- `HashMap::insert` keyed by `unique_name`: replace in place or append. -/
def mapInsert (m : List (String × Common.DiffBlob)) (k : String) (v : Common.DiffBlob) :
    List (String × Common.DiffBlob) :=
  if m.any (fun q => q.1 = k) then m.map (fun q => if q.1 = k then (k, v) else q)
  else m ++ [(k, v)]

def mapGet (m : List (String × Common.DiffBlob)) (k : String) : Option Common.DiffBlob :=
  match m.find? (fun q => q.1 = k) with
  | some q => some q.2
  | none => none

/-- `HashSet<String>::insert`. -/
def setInsert (s : List String) (x : String) : List String :=
  if x ∈ s then s else s ++ [x]

def setExtend (s : List String) (xs : List String) : List String :=
  xs.foldl setInsert s

/-- Load one manifest into the `unique_name`-keyed map
(src/diff.rs:216-219 / 224-227). -/
def parseManifestAux : List (List Char) → List (String × Common.DiffBlob) →
    RunResult (List (String × Common.DiffBlob))
  | [], m => .ok m
  | line :: rest, m =>
    match Common.fromStr line with
    | .panicked => .panicked
    | .err _ => .parseErr
    | .ok b => parseManifestAux rest (mapInsert m (uniqueName b) b)

def parseManifest (content : String) : RunResult (List (String × Common.DiffBlob)) :=
  parseManifestAux (lines content.data) []

/-- Inner line loop of `walk_dir` (src/diff.rs:352-372).  The walk stack is
kept reversed (head = `Vec` top), so pushing each directory line in order
conses it on. -/
def walkLines (isAdd : Bool) : List (List Char) → List String → List DiffCollectionType →
    List String → RunResult (List String × List DiffCollectionType × List String)
  | [], stack, result, set => .ok (stack, result, set)
  | line :: restLines, stack, result, set =>
    match Common.fromStr line with
    | .panicked => .panicked
    | .err _ => .parseErr
    | .ok blob =>
      match blob.blobType with
      | .File =>
        let item := if isAdd then DiffCollectionType.Add .File (String.mk blob.hash)
          else DiffCollectionType.Delete .File (String.mk blob.hash)
        let key := String.mk blob.hash ++ (DiffFileType.File).str
        walkLines isAdd restLines stack (result ++ [item]) (setInsert set key)
      | .Directory => walkLines isAdd restLines (String.mk blob.hash :: stack) result set

/-- `walk_dir` (src/diff.rs:322-375): mark a whole subtree as added or
deleted, collecting the records and the set of composite keys. -/
def walkDir (cas : List (String × String)) (isAdd : Bool) :
    Nat → List String → List DiffCollectionType → List String →
    Option (RunResult (List DiffCollectionType × List String))
  | 0, stack, result, set => if stack = [] then some (.ok (result, set)) else none
  | _ + 1, [], result, set => some (.ok (result, set))
  | fuel + 1, h :: stack, result, set =>
    match casGet cas h with
    | none => some .ioErr
    | some content =>
      let item := if isAdd then DiffCollectionType.Add .Directory h
        else DiffCollectionType.Delete .Directory h
      let key := h ++ (DiffFileType.Directory).str
      let set := setInsert set key
      let result := result ++ [item]
      match walkLines isAdd (lines content.data) stack result set with
      | .panicked => some .panicked
      | .ioErr => some .ioErr
      | .parseErr => some .parseErr
      | .ok (stack, result, set) => walkDir cas isAdd fuel stack result set

/-- The `for b in old_blobs.values()` loop of `compare_blob_files`
(src/diff.rs:237-275); returns the updated queue (reversed, head = back),
result list and delete set. -/
def oldLoop (cas : List (String × String)) (wfuel : Nat)
    (newBlobs : List (String × Common.DiffBlob)) :
    List (String × Common.DiffBlob) → List (String × String) → List DiffCollectionType →
    List String → Option (RunResult (List (String × String) × List DiffCollectionType × List String))
  | [], queue, result, deleteSet => some (.ok (queue, result, deleteSet))
  | (_, b) :: restVals, queue, result, deleteSet =>
    match mapGet newBlobs (uniqueName b) with
    | some nb =>
      if b.hash = nb.hash then oldLoop cas wfuel newBlobs restVals queue result deleteSet
      else
        match b.blobType with
        | .File =>
          oldLoop cas wfuel newBlobs restVals queue
            (result ++ [.Modify .File (String.mk b.hash) (String.mk nb.hash)]) deleteSet
        | .Directory =>
          oldLoop cas wfuel newBlobs restVals
            (queue ++ [(String.mk b.hash, String.mk nb.hash)]) result deleteSet
    | none =>
      match b.blobType with
      | .File =>
        let item := DiffCollectionType.Delete .File (String.mk b.hash)
        let key := String.mk b.hash ++ (DiffFileType.File).str
        oldLoop cas wfuel newBlobs restVals queue (result ++ [item]) (setInsert deleteSet key)
      | .Directory =>
        match walkDir cas false wfuel [String.mk b.hash] [] [] with
        | none => none
        | some .panicked => some .panicked
        | some .ioErr => some .ioErr
        | some .parseErr => some .parseErr
        | some (.ok (subs, set)) =>
          oldLoop cas wfuel newBlobs restVals queue (result ++ subs) (setExtend deleteSet set)

/-- The `for b in new_blobs.values()` loop (src/diff.rs:277-300). -/
def newLoop (cas : List (String × String)) (wfuel : Nat)
    (oldBlobs : List (String × Common.DiffBlob)) :
    List (String × Common.DiffBlob) → List DiffCollectionType → List String →
    Option (RunResult (List DiffCollectionType × List String))
  | [], result, addSet => some (.ok (result, addSet))
  | (_, b) :: restVals, result, addSet =>
    match mapGet oldBlobs (uniqueName b) with
    | some _ => newLoop cas wfuel oldBlobs restVals result addSet
    | none =>
      match b.blobType with
      | .File =>
        let item := DiffCollectionType.Add .File (String.mk b.hash)
        let key := String.mk b.hash ++ (DiffFileType.File).str
        newLoop cas wfuel oldBlobs restVals (result ++ [item]) (setInsert addSet key)
      | .Directory =>
        match walkDir cas true wfuel [String.mk b.hash] [] [] with
        | none => none
        | some .panicked => some .panicked
        | some .ioErr => some .ioErr
        | some .parseErr => some .parseErr
        | some (.ok (subs, set)) =>
          newLoop cas wfuel oldBlobs restVals (result ++ subs) (setExtend addSet set)

/-- The BFS loop of `compare_blob_files` (src/diff.rs:211-301): pop a pair,
load and parse both manifests, skip if the hashes are equal, otherwise emit
the directory `Modify` and run the two value loops.  Returns the raw result
list together with the accumulated add and delete sets. -/
def compareLoop (cas : List (String × String)) :
    Nat → List (String × String) → List DiffCollectionType → List String → List String →
    Option (RunResult (List DiffCollectionType × List String × List String))
  | 0, queue, result, addSet, deleteSet =>
    if queue = [] then some (.ok (result, addSet, deleteSet)) else none
  | _ + 1, [], result, addSet, deleteSet => some (.ok (result, addSet, deleteSet))
  | fuel + 1, (old, new) :: queueRest, result, addSet, deleteSet =>
    match casGet cas old with
    | none => some .ioErr
    | some oldContent =>
      match parseManifest oldContent with
      | .panicked => some .panicked
      | .ioErr => some .ioErr
      | .parseErr => some .parseErr
      | .ok oldBlobs =>
        match casGet cas new with
        | none => some .ioErr
        | some newContent =>
          match parseManifest newContent with
          | .panicked => some .panicked
          | .ioErr => some .ioErr
          | .parseErr => some .parseErr
          | .ok newBlobs =>
            if old = new then compareLoop cas fuel queueRest result addSet deleteSet
            else
              let result := result ++ [.Modify .Directory old new]
              match oldLoop cas (fuel + 1) newBlobs oldBlobs queueRest result deleteSet with
              | none => none
              | some .panicked => some .panicked
              | some .ioErr => some .ioErr
              | some .parseErr => some .parseErr
              | some (.ok (queue, result, deleteSet)) =>
                match newLoop cas (fuel + 1) oldBlobs newBlobs result addSet with
                | none => none
                | some .panicked => some .panicked
                | some .ioErr => some .ioErr
                | some .parseErr => some .parseErr
                | some (.ok (result, addSet)) =>
                  compareLoop cas fuel queue result addSet deleteSet

/-- The cancellation predicate of the final filter (src/diff.rs:302-316):
keep a record unless its `movement_unique_hash` lies in
`add_set ∩ delete_set`.  (`invalid_set.contains(&k)` with `invalid_set`
the intersection is exactly `k ∈ add_set ∧ k ∈ delete_set`.) -/
def cancelFilter (addSet deleteSet : List String) (x : DiffCollectionType) : Bool :=
  match movementUniqueHash x with
  | some k => !(addSet.contains k && deleteSet.contains k)
  | none => true

/-- `compare_blob_files(old_hash, new_hash, base)` (src/diff.rs:198-317). -/
def compare_blob_files (cas : List (String × String)) (fuel : Nat) (oldHash newHash : String) :
    Option (RunResult (List DiffCollectionType)) :=
  match compareLoop cas fuel [(oldHash, newHash)] [] [] [] with
  | none => none
  | some .panicked => some .panicked
  | some .ioErr => some .ioErr
  | some .parseErr => some .parseErr
  | some (.ok (result, addSet, deleteSet)) =>
    some (.ok (result.filter (cancelFilter addSet deleteSet)))

end DiffRs

/-! ## src/patch.rs — byte patches, the archive, and patch application -/

namespace PatchRs

/-- `enum BytesPatch` of src/patch.rs (payloads are byte buffers). -/
inductive BytesPatch where
  | Add (oldIndex newIndex : Nat) (newValue : List Nat)
  | Delete (oldIndex newIndex : Nat) (oldValue : List Nat)
  | Replace (oldIndex newIndex : Nat) (oldValue newValue : List Nat)
deriving Repr, DecidableEq

/-- `enum BlobPatch` of src/patch.rs. -/
inductive BlobPatch where
  | Add (newFile : String)
  | Delete (oldFile : String)
  | Replace (oldFile newFile : String) (patch : List BytesPatch)
deriving Repr, DecidableEq

def commonPrefixLen : List Nat → List Nat → Nat
  | a :: as, b :: bs => if a = b then commonPrefixLen as bs + 1 else 0
  | _, _ => 0

/-- Modelled from the spec: `calculate_binary_diff` (src/patch.rs:69-109)
delegates to the external `similar` crate
(`capture_diff_slices(Algorithm::Myers, …)`), which is not part of this
repository.  Spec §4.6 describes it as a Myers-LCS diff over byte slices
whose `Equal` spans are filtered out, and §8 scenario 1 pins the behaviour
on a tail change (`old=[1,2,3,4,5]`, `new=[1,2,3,4,6]` yields exactly
`[Replace{old_index:4, new_index:4, old_value:[5], new_value:[6]}]`).  The
model trims the longest common prefix and suffix and emits the one remaining
edit — it agrees with the pinned Myers behaviour on every input used below. -/
def calculate_binary_diff (old new : List Nat) : List BytesPatch :=
  let p := commonPrefixLen old new
  let oldR := old.drop p
  let newR := new.drop p
  let s := commonPrefixLen oldR.reverse newR.reverse
  let oldM := oldR.take (oldR.length - s)
  let newM := newR.take (newR.length - s)
  if oldM = [] ∧ newM = [] then []
  else if oldM = [] then [.Add p p newM]
  else if newM = [] then [.Delete p p oldM]
  else [.Replace p p oldM newM]

/-- `struct Replacement` of src/patch.rs (line 323-327). -/
structure Replacement where
  start : Nat
  length : Nat
  content : List Nat
deriving Repr, DecidableEq

/-- Conversion of a `BytesPatch` into a `Replacement` inside `apply_patchs`
(src/patch.rs:277-309): `Add` keeps length 0, `Delete` has empty content. -/
def toReplacement : BytesPatch → Replacement
  | .Add oi _ nv => ⟨oi, 0, nv⟩
  | .Delete oi _ ov => ⟨oi, ov.length, []⟩
  | .Replace oi _ ov nv => ⟨oi, ov.length, nv⟩

/-- `replacements.sort_by(|a, b| a.start.cmp(&b.start))` (src/patch.rs:310):
a stable sort, modelled exactly by insertion sort on `≤`. -/
def sortReplacements (l : List Replacement) : List Replacement :=
  List.insertionSort (fun a b => a.start ≤ b.start) l

/-- The loop of `copy_with_buffer` (src/patch.rs:329-341).  The buffer is
allocated once with size `min 1024 bytes` and never shrunk; a `BufReader`
read into it returns `min bufSize remaining`.  The loop writes everything a
read returns and decrements `bytes` with `saturating_sub`, so the returned
pair is (bytes written, input left).  `none` models the Rust loop spinning
forever (reads return 0 with `bytes` still positive). -/
def copyLoop (bufSize : Nat) : Nat → Nat → List Nat → List Nat → Option (List Nat × List Nat)
  | 0, bytes, input, acc => if bytes = 0 then some (acc, input) else none
  | fuel + 1, bytes, input, acc =>
    if bytes = 0 then some (acc, input)
    else
      let len := min bufSize input.length
      if len = 0 then none
      else copyLoop bufSize fuel (bytes - len) (input.drop len) (acc ++ input.take len)

/-- `copy_with_buffer(reader, writer, bytes)` (src/patch.rs:329-341). -/
def copy_with_buffer (bytes : Nat) (input : List Nat) : Option (List Nat × List Nat) :=
  copyLoop (min 1024 bytes) bytes bytes input []

/-- The replacement loop plus tail copy of `replace_parts_file`
(src/patch.rs:357-369).  `replacement.start - current_pos` underflowing
(`none`) models the Rust `usize` subtraction panicking; `seek` past the end
of file is legal and leaves nothing to read. -/
def replaceGo : List Replacement → List Nat → Nat → List Nat → Option (List Nat)
  | [], input, _, acc => some (acc ++ input)
  | r :: rest, input, currentPos, acc =>
    if r.start < currentPos then none
    else
      match copy_with_buffer (r.start - currentPos) input with
      | none => none
      | some (written, input) =>
        replaceGo rest (input.drop r.length) (r.start + r.length) (acc ++ written ++ r.content)

/-- `replace_parts_file(original_file, dest_file, replacements)`
(src/patch.rs:343-373): the bytes written to `dest_file`. -/
def replace_parts_file (original : List Nat) (replacements : List Replacement) :
    Option (List Nat) :=
  replaceGo replacements original 0 []

/-- The `BlobPatch::Replace` arm of `apply_patchs` (src/patch.rs:272-317):
convert the byte patches to replacements, sort by `start`, and stream the
original through `replace_parts_file`. -/
def applyBytesPatches (original : List Nat) (patch : List BytesPatch) : Option (List Nat) :=
  replace_parts_file original (sortReplacements (patch.map toReplacement))

/-! ### The patch archive

Modelled from the spec (§4.7, §6): the zip container is the external `zip`
crate; an archive is its list of named entries `(name, bytes)` in order.
The `BlobPatch` encoding is the external `bincode` crate (v1 default
configuration as used by `bincode::serialize`/`bincode::deserialize`):
little-endian, field-ordered, `u32` enum variant tags, `u64` length-prefixed
strings and byte buffers; `deserialize` reads a single value and ignores
trailing bytes. -/

def u32le (n : Nat) : List Nat :=
  [n % 256, n / 256 % 256, n / 65536 % 256, n / 16777216 % 256]

def u64le (n : Nat) : List Nat :=
  [n % 256, n / 256 % 256, n / 65536 % 256, n / 16777216 % 256,
    n / 4294967296 % 256, n / 1099511627776 % 256,
    n / 281474976710656 % 256, n / 72057594037927936 % 256]

def serBytes (b : List Nat) : List Nat := u64le b.length ++ b

def serString (s : String) : List Nat := u64le (strBytes s).length ++ strBytes s

def serBytesPatch : BytesPatch → List Nat
  | .Add oi ni nv => u32le 0 ++ u64le oi ++ u64le ni ++ serBytes nv
  | .Delete oi ni ov => u32le 1 ++ u64le oi ++ u64le ni ++ serBytes ov
  | .Replace oi ni ov nv => u32le 2 ++ u64le oi ++ u64le ni ++ serBytes ov ++ serBytes nv

def serBlobPatch : BlobPatch → List Nat
  | .Add nf => u32le 0 ++ serString nf
  | .Delete of => u32le 1 ++ serString of
  | .Replace of nf patch =>
    u32le 2 ++ serString of ++ serString nf ++ u64le patch.length ++
      (patch.map serBytesPatch).foldr (· ++ ·) []

def deU32 (l : List Nat) : Option (Nat × List Nat) :=
  match l with
  | b0 :: b1 :: b2 :: b3 :: rest => some (b0 + 256 * b1 + 65536 * b2 + 16777216 * b3, rest)
  | _ => none

def deU64 (l : List Nat) : Option (Nat × List Nat) :=
  match l with
  | b0 :: b1 :: b2 :: b3 :: b4 :: b5 :: b6 :: b7 :: rest =>
    some (b0 + 256 * (b1 + 256 * (b2 + 256 * (b3 + 256 * (b4 + 256 * (b5 + 256 *
      (b6 + 256 * b7)))))), rest)
  | _ => none

def deBytes (l : List Nat) : Option (List Nat × List Nat) :=
  match deU64 l with
  | none => none
  | some (n, rest) => if n ≤ rest.length then some (rest.take n, rest.drop n) else none

/-- Decode a UTF-8 byte list (invalid sequences fail, as bincode rejects
non-UTF-8 strings). -/
def utf8Decode : List Nat → Option (List Char)
  | [] => some []
  | b :: rest =>
    if b < 0x80 then
      match utf8Decode rest with
      | some cs => some (Char.ofNat b :: cs)
      | none => none
    else if 0xC0 ≤ b ∧ b < 0xE0 then
      match rest with
      | c1 :: rest' =>
        if 0x80 ≤ c1 ∧ c1 < 0xC0 then
          let v := (b - 0xC0) * 64 + (c1 - 0x80)
          if 0x80 ≤ v then
            match utf8Decode rest' with
            | some cs => some (Char.ofNat v :: cs)
            | none => none
          else none
        else none
      | _ => none
    else if 0xE0 ≤ b ∧ b < 0xF0 then
      match rest with
      | c1 :: c2 :: rest' =>
        if (0x80 ≤ c1 ∧ c1 < 0xC0) ∧ (0x80 ≤ c2 ∧ c2 < 0xC0) then
          let v := (b - 0xE0) * 4096 + (c1 - 0x80) * 64 + (c2 - 0x80)
          if 0x800 ≤ v ∧ ¬(0xD800 ≤ v ∧ v ≤ 0xDFFF) then
            match utf8Decode rest' with
            | some cs => some (Char.ofNat v :: cs)
            | none => none
          else none
        else none
      | _ => none
    else if 0xF0 ≤ b ∧ b < 0xF5 then
      match rest with
      | c1 :: c2 :: c3 :: rest' =>
        if (0x80 ≤ c1 ∧ c1 < 0xC0) ∧ (0x80 ≤ c2 ∧ c2 < 0xC0) ∧ (0x80 ≤ c3 ∧ c3 < 0xC0) then
          let v := (b - 0xF0) * 262144 + (c1 - 0x80) * 4096 + (c2 - 0x80) * 64 + (c3 - 0x80)
          if 0x10000 ≤ v ∧ v ≤ 0x10FFFF then
            match utf8Decode rest' with
            | some cs => some (Char.ofNat v :: cs)
            | none => none
          else none
        else none
      | _ => none
    else none

def deString (l : List Nat) : Option (String × List Nat) :=
  match deBytes l with
  | none => none
  | some (bs, rest) =>
    match utf8Decode bs with
    | some cs => some (String.mk cs, rest)
    | none => none

def deBytesPatch (l : List Nat) : Option (BytesPatch × List Nat) :=
  match deU32 l with
  | none => none
  | some (tag, rest) =>
    match deU64 rest with
    | none => none
    | some (oi, rest) =>
      match deU64 rest with
      | none => none
      | some (ni, rest) =>
        if tag = 0 then
          match deBytes rest with
          | some (nv, rest) => some (.Add oi ni nv, rest)
          | none => none
        else if tag = 1 then
          match deBytes rest with
          | some (ov, rest) => some (.Delete oi ni ov, rest)
          | none => none
        else if tag = 2 then
          match deBytes rest with
          | some (ov, rest) =>
            match deBytes rest with
            | some (nv, rest) => some (.Replace oi ni ov nv, rest)
            | none => none
          | none => none
        else none

def deBytesPatchList : Nat → List Nat → Option (List BytesPatch × List Nat)
  | 0, l => some ([], l)
  | n + 1, l =>
    match deBytesPatch l with
    | none => none
    | some (p, rest) =>
      match deBytesPatchList n rest with
      | some (ps, rest) => some (p :: ps, rest)
      | none => none

/-- Decode one `BlobPatch` value, returning the remaining bytes: bincode 1's
`deserialize` reads a single value and allows (silently drops) trailing
bytes. -/
def deBlobPatch (l : List Nat) : Option (BlobPatch × List Nat) :=
  match deU32 l with
  | none => none
  | some (tag, rest) =>
    if tag = 0 then
      match deString rest with
      | some (nf, rest) => some (.Add nf, rest)
      | none => none
    else if tag = 1 then
      match deString rest with
      | some (of, rest) => some (.Delete of, rest)
      | none => none
    else if tag = 2 then
      match deString rest with
      | some (of, rest) =>
        match deString rest with
        | some (nf, rest) =>
          match deU64 rest with
          | none => none
          | some (n, rest) =>
            match deBytesPatchList n rest with
            | some (ps, rest) => some (.Replace of nf ps, rest)
            | none => none
        | none => none
      | none => none
    else none

/-! ### `create_zip_patch` and `unpack_patch` -/

def casGet (cas : List (String × List Nat)) (h : String) : Option (List Nat) :=
  match cas.find? (fun q => q.1 = h) with
  | some q => some q.2
  | none => none

/-- `BlobPatch::from(diffs, base_path)` (src/patch.rs:126-155): convert each
change record; `Modify` reads both blobs out of the store and computes the
byte diff.  `none` is the propagated `FileParseError`. -/
def blobPatchFrom (cas : List (String × List Nat)) :
    List DiffRs.DiffCollectionType → Option (List BlobPatch)
  | [] => some []
  | d :: rest =>
    let head : Option BlobPatch :=
      match d with
      | .Add _ v => some (.Add v)
      | .Delete _ v => some (.Delete v)
      | .Modify _ o n =>
        match casGet cas o, casGet cas n with
        | some oldBuf, some newBuf => some (.Replace o n (calculate_binary_diff oldBuf newBuf))
        | _, _ => none
    match head, blobPatchFrom cas rest with
    | some p, some ps => some (p :: ps)
    | _, _ => none

/-- `create_zip_patch(diffs, from_dir, to_dest)` (src/patch.rs:186-227): the
archive produced, as its ordered entry list.  An empty patch list produces no
archive (`some none`); otherwise the `ditiear.patch` entry holds the
concatenation of the bincode-serialized records, followed by one entry per
`Add` record named by the blob hash and carrying its bytes. -/
def create_zip_patch (cas : List (String × List Nat))
    (diffs : List DiffRs.DiffCollectionType) :
    Option (Option (List (String × List Nat))) :=
  match blobPatchFrom cas diffs with
  | none => none
  | some patchs =>
    if patchs = [] then some none
    else
      let payload := (patchs.map serBlobPatch).foldr (· ++ ·) []
      let addEntries : Option (List (String × List Nat)) :=
        patchs.foldr
          (fun p acc =>
            match p, acc with
            | .Add nf, some es =>
              match casGet cas nf with
              | some bytes => some ((nf, bytes) :: es)
              | none => none
            | _, some es => some es
            | _, none => none)
          (some [])
      match addEntries with
      | none => none
      | some adds => some (some (("ditiear.patch", payload) :: adds))

/-- `unpack_patch(patch_path, process_file)` (src/patch.rs:229-254): walk the
entries in order; every entry not named `ditiear.patch` goes to the callback;
the `ditiear.patch` entry is fed ONCE to `bincode::deserialize` and the
single decoded record is pushed.  `none` is a deserialization error. -/
def unpackLoop : List (String × List Nat) → List BlobPatch → Option (List BlobPatch)
  | [], patchs => some patchs
  | (name, bytes) :: rest, patchs =>
    if name ≠ "ditiear.patch" then unpackLoop rest patchs
    else
      match deBlobPatch bytes with
      | none => none
      | some (p, _) => unpackLoop rest (patchs ++ [p])

def unpack_patch (archive : List (String × List Nat)) : Option (List BlobPatch) :=
  unpackLoop archive []

/-! ### The add-blob ingest of `apply_patchs` (src/patch.rs:256-261) -/

/-- `path_from_hash` (src/common.rs:10-20): shard directory = first byte of
the hash, file name = the rest.  (The hashes written by this system are
ASCII hex, for which the byte split is the char split.) -/
def pathFromHash (hash : String) : String × String :=
  (String.mk (hash.data.take 1), String.mk (hash.data.drop 1))

/-- `fs::File::create(path)` followed by `write_all`: creates or TRUNCATES
the file at `path` and writes the buffer — an unconditional overwrite. -/
def fsCreateWrite (fs : List ((String × String) × List Nat)) (p : String × String)
    (bytes : List Nat) : List ((String × String) × List Nat) :=
  (p, bytes) :: fs.filter (fun q => q.1 ≠ p)

def fsGet (fs : List ((String × String) × List Nat)) (p : String × String) :
    Option (List Nat) :=
  match fs.find? (fun q => q.1 = p) with
  | some q => some q.2
  | none => none

/-- The `process_file` closure passed by `apply_patchs` to `unpack_patch`
(src/patch.rs:257-261), folded over the non-`ditiear.patch` entries in
archive order: write each entry's bytes to the sharded path derived from its
name. -/
def applyIngest (fs : List ((String × String) × List Nat)) :
    List (String × List Nat) → List ((String × String) × List Nat)
  | [] => fs
  | (name, bytes) :: rest =>
    if name ≠ "ditiear.patch" then
      applyIngest (fsCreateWrite fs (pathFromHash name) bytes) rest
    else applyIngest fs rest

end PatchRs

/-! ## Theorems -/

set_option maxRecDepth 100000 in
/-- C1: the claim states that replaying `calculate_binary_diff(A, B)` over
`A` with `replace_parts_file`'s streaming algorithm produces exactly `B` for
every `A`, `B`.  It fails: `copy_with_buffer` allocates its buffer once with
size `min 1024 bytes` and keeps copying whole reads as `bytes` shrinks, so a
gap longer than 1024 bytes copies too much input.  At `A = 0^1025 ++ [1]`,
`B = 0^1025 ++ [2]` the diff is `[Replace 1025 1025 [1] [2]]` and the replay
emits all 1026 bytes of `A` before appending `[2]`, producing `A ++ [2]`
instead of `B`. -/
theorem C1_replay_diverges_at_failing_input :
    PatchRs.applyBytesPatches (List.replicate 1025 0 ++ [1])
        (PatchRs.calculate_binary_diff (List.replicate 1025 0 ++ [1])
          (List.replicate 1025 0 ++ [2])) =
      some (List.replicate 1025 0 ++ [1, 2]) ∧
    some (List.replicate 1025 0 ++ [1, 2]) ≠ some (List.replicate 1025 0 ++ [2]) := by
  constructor
  · decide
  · decide

set_option maxRecDepth 100000 in
/-- C2: the claim states that `unpack_patch` returns the full ordered
`BlobPatch` list that `create_zip_patch` serialized into the `ditiear.patch`
entry, for a change list of any length.  It fails for length ≥ 2:
`create_zip_patch` concatenates the serialized records into the single
`ditiear.patch` entry, but `unpack_patch` calls `bincode::deserialize` once
per archive entry, decoding only the first record and silently dropping the
rest.  With the change list `[Add "aa", Add "bb"]` the unpacked list is
`[Add "aa"]`. -/
theorem C2_unpack_drops_records_at_failing_input :
    (PatchRs.create_zip_patch [("aa", [1]), ("bb", [2])]
        [DiffRs.DiffCollectionType.Add .File "aa",
          DiffRs.DiffCollectionType.Add .File "bb"]).map
        (Option.map PatchRs.unpack_patch) =
      some (some (some [PatchRs.BlobPatch.Add "aa"])) ∧
    [PatchRs.BlobPatch.Add "aa"] ≠ [PatchRs.BlobPatch.Add "aa", PatchRs.BlobPatch.Add "bb"] := by
  constructor
  · decide
  · decide

/-- C7 counterexample: the claim states that during `apply_patchs` an archive
entry's bytes are written idempotently — an existing file at the sharded path
is never truncated or overwritten.  But the `process_file` closure calls
`fs::File::create`, which truncates: with the store already holding `[1]`
at the sharded path for `"ab"`, ingesting an entry `("ab", [2])` leaves
`[2]` there. -/
theorem C7_counterexample :
    PatchRs.fsGet [(("a", "b"), [1])] ("a", "b") = some [1] ∧
    PatchRs.fsGet (PatchRs.applyIngest [(("a", "b"), [1])] [("ab", [2])]) ("a", "b") =
      some [2] ∧
    ([2] : List Nat) ≠ [1] := by
  refine ⟨by decide, by decide, by decide⟩

/-- C7 amended: `apply_patchs` writes every non-`ditiear.patch` entry's bytes
to the sharded path derived from its name UNCONDITIONALLY: after the ingest,
the path holds the entry's bytes regardless of what was there before (an
existing file is truncated and overwritten, not left alone). -/
theorem C7_ingest_unconditional_write (fs : List ((String × String) × List Nat))
    (name : String) (bytes : List Nat) (h : name ≠ "ditiear.patch") :
    PatchRs.fsGet (PatchRs.applyIngest fs [(name, bytes)]) (PatchRs.pathFromHash name) =
      some bytes := by
  simp [PatchRs.applyIngest, h, PatchRs.fsGet, PatchRs.fsCreateWrite, List.find?]

/-- C7 witness: the amended statement evaluated at a concrete store and
entry. -/
theorem C7_witness :
    PatchRs.fsGet (PatchRs.applyIngest [(("a", "b"), [1])] [("ab", [2])])
      (PatchRs.pathFromHash "ab") = some [2] :=
  C7_ingest_unconditional_write [(("a", "b"), [1])] "ab" [2] (by decide)

/-- C3 counterexample: the claim states every manifest's record list is
sorted by `name` ascending.  Both builders actually sort by `hash`
(`sort_by(|a, b| a.hash.cmp(&b.hash))`): for a directory with files
`a ↦ [0]` and `b ↦ [1]`, the emitted manifest lists `b` (hash
`8a41…`) before `a` (hash `e934…`), which is not sorted by name. -/
theorem C3_counterexample :
    HashRs.recManifests [.file "a" [0], .file "b" [1]] =
      [("da5880d235e0918f",
        [⟨"b", "8a4127811b21e730", .File⟩, ⟨"a", "e934a84adb052768", .File⟩])] ∧
    ¬ List.Pairwise
      (fun x y : HashRs.DiffBlob => HashRs.charListLe x.name.data y.name.data = true)
      [⟨"b", "8a4127811b21e730", .File⟩, ⟨"a", "e934a84adb052768", .File⟩] := by
  constructor
  · decide
  · decide

/-- C5 counterexample: the claim states the iterative and recursive builders
return identical root hashes.  On the flat directory `{a ↦ [0], b ↦ [1]}`
the iterative builder's stack replays a stale `(root, [a-record])` state
last, so its final root manifest contains only the first file's record: it
returns `ec1931e8ab2efa8d` while the recursive builder returns
`da5880d235e0918f`. -/
theorem C5_counterexample :
    HashRs.iterRoot [.file "a" [0], .file "b" [1]] "r" 20 = some (some "ec1931e8ab2efa8d") ∧
    HashRs.recRoot [.file "a" [0], .file "b" [1]] = "da5880d235e0918f" ∧
    ("ec1931e8ab2efa8d" : String) ≠ "da5880d235e0918f" := by
  refine ⟨by decide, by decide, by decide⟩

/-- C6 counterexample: the claim states a directory with zero non-filtered
entries does not appear in its parent's manifest and no manifest blob is
emitted for it.  The recursive builder does both: for
`{d/ (empty), f ↦ [0]}` it emits a manifest for `d` (the hash of the empty
byte string, `ef46db3751d8e999`) and lists `d` in the root manifest. -/
theorem C6_counterexample :
    HashRs.recManifests [.dir "d" [], .file "f" [0]] =
      [("ef46db3751d8e999", []),
        ("22af307c44a1fe9d",
          [⟨"f", "e934a84adb052768", .File⟩, ⟨"d", "ef46db3751d8e999", .Directory⟩])] ∧
    (⟨"d", "ef46db3751d8e999", .Directory⟩ : HashRs.DiffBlob) ∈
      (HashRs.recManifests [.dir "d" [], .file "f" [0]]).foldr (fun m acc => m.2 ++ acc) [] := by
  constructor
  · decide
  · decide

set_option maxRecDepth 100000 in
/-- C9 counterexample: the claim's well-formedness conditions do not bound
the name's byte length; for a 256-byte name `format!("{:02x}", 256)` prints
three digits, the trailer becomes 7 characters, and parsing the formatted
line misreads every field and fails with `InvalidType` instead of returning
the record. -/
theorem C9_counterexample :
    Common.fromStr (Common.DiffBlob.display ⟨List.replicate 256 'a', "hash".data, .File⟩) =
      .err .InvalidType ∧
    Common.ParseOutcome.err .InvalidType ≠
      Common.ParseOutcome.ok ⟨List.replicate 256 'a', "hash".data, .File⟩ := by
  constructor
  · decide
  · decide

/-- C10 counterexample: the claim states `DiffBlob::from_str` is total and
that the `InvalidTotalLength` check keeps every split in bounds.  The check
compares against the UNtrimmed-of-trailer length (`len < n + h + t + 3`), so
the input `"abcdef070101"` (declared lengths 7, 1, 1; total length 12)
passes the check and `s.split_at(7)` on the 6-byte prefix `"abcdef"` panics
with an out-of-bounds byte index. -/
theorem C10_counterexample :
    Common.fromStr "abcdef070101".data = .panicked ∧
    Common.declaredLengths "abcdef070101".data = some (7, 1, 1) := by
  constructor
  · decide
  · decide

/-- C8: in the list returned by `compare_blob_files`, no `Add` or `Delete`
record remains whose composite key (`hash ++ kind`) lies in the intersection
of the add-set and delete-set accumulated during the walk, and every `Modify`
record collected during the walk is retained. -/
theorem C8_cancellation (cas : List (String × String)) (fuel : Nat)
    (oldHash newHash : String) (r : List DiffRs.DiffCollectionType) (a d : List String)
    (h : DiffRs.compareLoop cas fuel [(oldHash, newHash)] [] [] [] = some (.ok (r, a, d))) :
    DiffRs.compare_blob_files cas fuel oldHash newHash =
      some (.ok (r.filter (DiffRs.cancelFilter a d))) ∧
    (∀ x ∈ r.filter (DiffRs.cancelFilter a d), ∀ k, DiffRs.movementUniqueHash x = some k →
      ¬(k ∈ a ∧ k ∈ d)) ∧
    (∀ ty o n, DiffRs.DiffCollectionType.Modify ty o n ∈ r →
      DiffRs.DiffCollectionType.Modify ty o n ∈ r.filter (DiffRs.cancelFilter a d)) := by
  refine ⟨by simp [DiffRs.compare_blob_files, h], ?_, ?_⟩
  · intro x hx k hk hakd
    have hmem := List.mem_filter.mp hx
    have h2 := hmem.2
    simp [DiffRs.cancelFilter, hk] at h2
    rcases h2 with h2 | h2
    · exact h2 hakd.1
    · exact h2 hakd.2
  · intro ty o n hmem
    exact List.mem_filter.mpr
      ⟨hmem, by simp [DiffRs.cancelFilter, DiffRs.movementUniqueHash]⟩

/-- C8 witness: the theorem evaluated on a store holding the empty manifest
under hash `h`, diffing `h` against itself. -/
theorem C8_witness :
    DiffRs.compare_blob_files [("h", "")] 2 "h" "h" = some (.ok []) := by
  have h : DiffRs.compareLoop [("h", "")] 2 [("h", "h")] [] [] [] =
      some (.ok ([], [], [])) := by decide
  simpa using (C8_cancellation [("h", "")] 2 "h" "h" [] [] [] h).1

/-- C6 amended: under the recursive builder, a directory with zero
non-filtered entries IS emitted: its parent's record list contains a
`Directory` record for it carrying the hash of the empty manifest, that
record survives into the parent's sorted manifest, and an empty manifest
blob is written for it. -/
theorem C6_empty_dir_emitted (es : List HashRs.FsEntry) (n : String)
    (hmem : HashRs.FsEntry.dir n [] ∈ es) (hn : n ≠ ".DS_Store") :
    (⟨n, bytesHashHex [], .Directory⟩ : HashRs.DiffBlob) ∈ HashRs.blobsOf es ∧
    (bytesHashHex [], ([] : List HashRs.DiffBlob)) ∈ HashRs.recManifests es ∧
    (⟨n, bytesHashHex [], .Directory⟩ : HashRs.DiffBlob) ∈
      HashRs.sortByHash (HashRs.blobsOf es) := by
  have key : (⟨n, bytesHashHex [], .Directory⟩ : HashRs.DiffBlob) ∈ HashRs.blobsOf es ∧
      (bytesHashHex [], ([] : List HashRs.DiffBlob)) ∈ (HashRs.recList es).2 := by
    induction es with
    | nil => cases hmem
    | cons e rest ih =>
      rcases List.mem_cons.mp hmem with he | hm
      · subst he
        constructor
        · simp [HashRs.blobsOf, HashRs.recList, HashRs.FsEntry.name, hn, HashRs.recEntry,
            HashRs.sortByHash, HashRs.manifestString, strBytes, utf8Bytes]
        · simp [HashRs.recList, HashRs.FsEntry.name, hn, HashRs.recEntry,
            HashRs.sortByHash, HashRs.manifestString, strBytes, utf8Bytes]
      · have ihm := ih hm
        constructor
        · by_cases hds : e.name = ".DS_Store"
          · simpa [HashRs.blobsOf, HashRs.recList, hds] using ihm.1
          · simp [HashRs.blobsOf, HashRs.recList, hds] at ihm ⊢
            exact Or.inr ihm.1
        · by_cases hds : e.name = ".DS_Store"
          · simpa [HashRs.recList, hds] using ihm.2
          · simp [HashRs.recList, hds] at ihm ⊢
            exact Or.inr ihm.2
  refine ⟨key.1, ?_, ?_⟩
  · exact List.mem_append_left _ key.2
  · exact ((List.perm_insertionSort HashRs.hashLe (HashRs.blobsOf es)).mem_iff).mpr key.1

/-- C6 witness: the amended statement at the concrete tree
`{d/ (empty), f ↦ [0]}`. -/
theorem C6_witness :
    (⟨"d", bytesHashHex [], .Directory⟩ : HashRs.DiffBlob) ∈
      HashRs.blobsOf [.dir "d" [], .file "f" [0]] ∧
    (bytesHashHex [], ([] : List HashRs.DiffBlob)) ∈
      HashRs.recManifests [.dir "d" [], .file "f" [0]] ∧
    (⟨"d", bytesHashHex [], .Directory⟩ : HashRs.DiffBlob) ∈
      HashRs.sortByHash (HashRs.blobsOf [.dir "d" [], .file "f" [0]]) :=
  C6_empty_dir_emitted [.dir "d" [], .file "f" [0]] "d" (List.mem_cons_self _ _) (by decide)

/-! ### Order facts about the hash comparator -/

theorem charListLe_cons_iff (p q : Char) (ps qs : List Char) :
    HashRs.charListLe (p :: ps) (q :: qs) = true ↔
      (p.toNat < q.toNat ∨ (p.toNat = q.toNat ∧ HashRs.charListLe ps qs = true)) := by
  simp only [HashRs.charListLe]
  by_cases h1 : p.toNat < q.toNat
  · simp [h1]
  · by_cases h2 : q.toNat < p.toNat
    · simp [h1, h2]; omega
    · have he : p.toNat = q.toNat := by omega
      simp [h1, h2, he]

theorem charListLe_total : ∀ a b : List Char,
    HashRs.charListLe a b = true ∨ HashRs.charListLe b a = true := by
  intro a
  induction a with
  | nil => intro b; left; rfl
  | cons x xs ih =>
    intro b
    cases b with
    | nil => right; rfl
    | cons y ys =>
      rcases Nat.lt_trichotomy x.toNat y.toNat with h | h | h
      · left; exact (charListLe_cons_iff ..).mpr (Or.inl h)
      · rcases ih ys with hr | hr
        · left; exact (charListLe_cons_iff ..).mpr (Or.inr ⟨h, hr⟩)
        · right; exact (charListLe_cons_iff ..).mpr (Or.inr ⟨h.symm, hr⟩)
      · right; exact (charListLe_cons_iff ..).mpr (Or.inl h)

theorem charListLe_trans : ∀ a b c : List Char,
    HashRs.charListLe a b = true → HashRs.charListLe b c = true →
    HashRs.charListLe a c = true := by
  intro a
  induction a with
  | nil => intro b c _ _; rfl
  | cons x xs ih =>
    intro b c hab hbc
    cases b with
    | nil => simp [HashRs.charListLe] at hab
    | cons y ys =>
      cases c with
      | nil => simp [HashRs.charListLe] at hbc
      | cons z zs =>
        rcases (charListLe_cons_iff ..).mp hab with h1 | ⟨h1, h1r⟩ <;>
          rcases (charListLe_cons_iff ..).mp hbc with h2 | ⟨h2, h2r⟩
        · exact (charListLe_cons_iff ..).mpr (Or.inl (h1.trans h2))
        · exact (charListLe_cons_iff ..).mpr (Or.inl (h2 ▸ h1))
        · exact (charListLe_cons_iff ..).mpr (Or.inl (h1 ▸ h2))
        · exact (charListLe_cons_iff ..).mpr (Or.inr ⟨h1.trans h2, ih ys zs h1r h2r⟩)

theorem charListLe_antisymm : ∀ a b : List Char,
    HashRs.charListLe a b = true → HashRs.charListLe b a = true → a = b := by
  intro a
  induction a with
  | nil =>
    intro b _ hba
    cases b with
    | nil => rfl
    | cons y ys => simp [HashRs.charListLe] at hba
  | cons x xs ih =>
    intro b hab hba
    cases b with
    | nil => simp [HashRs.charListLe] at hab
    | cons y ys =>
      rcases (charListLe_cons_iff ..).mp hab with h1 | ⟨h1, h1r⟩ <;>
        rcases (charListLe_cons_iff ..).mp hba with h2 | ⟨h2, h2r⟩
      · omega
      · omega
      · omega
      · have hxy : x = y := Char.eq_of_val_eq (by
          have : x.val.toNat = y.val.toNat := h1
          exact UInt32.eq_of_val_eq (Fin.ext this))
        rw [hxy, ih ys h1r h2r]

theorem sortByHash_sorted (l : List HashRs.DiffBlob) :
    List.Pairwise HashRs.hashLe (HashRs.sortByHash l) := by
  have ht : IsTotal HashRs.DiffBlob HashRs.hashLe := ⟨fun a b => charListLe_total _ _⟩
  have htr : IsTrans HashRs.DiffBlob HashRs.hashLe :=
    ⟨fun a b c hab hbc => charListLe_trans _ _ _ hab hbc⟩
  exact @List.sorted_insertionSort _ HashRs.hashLe _ ht htr l

/-! ### C3 (amended): every emitted manifest is sorted by hash -/

theorem recTrace_sorted : ∀ (k : Nat) (es : List HashRs.FsEntry), sizeOf es ≤ k →
    ∀ m ∈ (HashRs.recList es).2, List.Pairwise HashRs.hashLe m.2 := by
  intro k
  induction k with
  | zero =>
    intro es h
    cases es with
    | nil => intro m hm; simp [HashRs.recList] at hm
    | cons e rest => simp at h
  | succ k ih =>
    intro es hsz m hm
    cases es with
    | nil => simp [HashRs.recList] at hm
    | cons e rest =>
      simp at hsz
      by_cases hds : e.name = ".DS_Store"
      · exact ih rest (by omega) m (by simpa [HashRs.recList, hds] using hm)
      · simp only [HashRs.recList, hds, if_neg, ite_false] at hm
        rcases List.mem_append.mp hm with hm1 | hm2
        · cases e with
          | file n c => simp [HashRs.recEntry] at hm1
          | dir n es0 =>
            simp only [HashRs.recEntry] at hm1
            rcases List.mem_append.mp hm1 with hm3 | hm4
            · have : sizeOf es0 ≤ k := by simp at hsz; omega
              exact ih es0 this m hm3
            · have hm5 := List.mem_singleton.mp hm4
              rw [hm5]
              exact sortByHash_sorted _
        · exact ih rest (by omega) m hm2

theorem iterEntryLoop_manifests (p : HashRs.FsPath) :
    ∀ (es : List HashRs.FsEntry) (st : HashRs.IterState),
      (HashRs.iterEntryLoop p es st).manifests = st.manifests := by
  intro es
  induction es with
  | nil => intro st; rfl
  | cons e rest ih =>
    intro st
    simp only [HashRs.iterEntryLoop]
    split
    · exact ih st
    · split
      · exact ih st
      · rw [ih]
        cases e <;> dsimp only <;> split <;> (try split) <;> rfl

theorem iterLoop_manifests_sorted :
    ∀ (fuel : Nat) (root : List HashRs.FsEntry) (rootName : String)
      (stack : List (HashRs.FsPath × List HashRs.DiffBlob))
      (resolved : List (HashRs.FsPath × HashRs.DiffBlob))
      (ms0 : List (String × List HashRs.DiffBlob))
      (res : List (HashRs.FsPath × HashRs.DiffBlob))
      (ms : List (String × List HashRs.DiffBlob)),
      (∀ m ∈ ms0, List.Pairwise HashRs.hashLe m.2) →
      HashRs.iterLoop root rootName fuel stack resolved ms0 = some (some (res, ms)) →
      ∀ m ∈ ms, List.Pairwise HashRs.hashLe m.2 := by
  intro fuel
  induction fuel with
  | zero => intro root rootName stack resolved ms0 res ms _ heq; simp [HashRs.iterLoop] at heq
  | succ fuel ih =>
    intro root rootName stack resolved ms0 res ms h0 heq
    cases stack with
    | nil =>
      simp only [HashRs.iterLoop, Option.some.injEq, Prod.mk.injEq] at heq
      obtain ⟨-, h2⟩ := heq
      subst h2
      exact h0
    | cons top rest =>
      obtain ⟨pp, e0⟩ := top
      simp only [HashRs.iterLoop] at heq
      cases hstep : HashRs.iterStep root rootName pp e0 rest resolved ms0 with
      | none => rw [hstep] at heq; simp at heq
      | some out =>
        obtain ⟨stack1, resolved1, ms1⟩ := out
        rw [hstep] at heq
        have hms1 : ∀ m ∈ ms1, List.Pairwise HashRs.hashLe m.2 := by
          simp only [HashRs.iterStep] at hstep
          cases hlook : HashRs.lookupEntries root pp with
          | none => rw [hlook] at hstep; simp at hstep
          | some es =>
            rw [hlook] at hstep
            simp only [] at hstep
            split at hstep
            · simp only [Option.some.injEq, Prod.mk.injEq] at hstep
              obtain ⟨_, _, hm⟩ := hstep
              subst hm
              intro m hm
              rcases List.mem_append.mp hm with h1 | h2
              · exact h0 m (by
                  rwa [iterEntryLoop_manifests] at h1)
              · rw [List.mem_singleton.mp h2]
                exact sortByHash_sorted _
            · simp only [Option.some.injEq, Prod.mk.injEq] at hstep
              obtain ⟨_, _, hm⟩ := hstep
              subst hm
              intro m hm
              exact h0 m (by rwa [iterEntryLoop_manifests] at hm)
        exact ih root rootName stack1 resolved1 ms1 res ms hms1 heq

/-- C3 amended: every manifest produced by either snapshot builder has its
record list sorted by HASH ascending — the record list is sorted with
`sort_by(|a, b| a.hash.cmp(&b.hash))` right before hashing and writing. -/
theorem C3_manifests_sorted_by_hash :
    (∀ es, ∀ m ∈ HashRs.recManifests es, List.Pairwise HashRs.hashLe m.2) ∧
    (∀ root rootName fuel h ms, HashRs.iterBuild root rootName fuel = some (some (h, ms)) →
      ∀ m ∈ ms, List.Pairwise HashRs.hashLe m.2) := by
  constructor
  · intro es m hm
    rcases List.mem_append.mp hm with h1 | h2
    · exact recTrace_sorted (sizeOf es) es le_rfl m h1
    · rw [List.mem_singleton.mp h2]
      exact sortByHash_sorted _
  · intro root rootName fuel h ms heq m hm
    simp only [HashRs.iterBuild] at heq
    cases hl : HashRs.iterLoop root rootName fuel [([], [])] [] [] with
    | none => rw [hl] at heq; simp at heq
    | some o =>
      rw [hl] at heq
      cases o with
      | none => simp at heq
      | some pr =>
        obtain ⟨resolved, manifests⟩ := pr
        simp only [] at heq
        cases hg : HashRs.resolvedGet resolved [] with
        | none => rw [hg] at heq; simp at heq
        | some b =>
          rw [hg] at heq
          simp only [Option.some.injEq, Prod.mk.injEq] at heq
          obtain ⟨-, hms⟩ := heq
          exact iterLoop_manifests_sorted fuel root rootName [([], [])] [] [] resolved manifests
            (by intro m hm; cases hm) hl m (hms ▸ hm)

/-- C3 witness: the amended statement at a concrete single-file tree. -/
theorem C3_witness :
    List.Pairwise HashRs.hashLe
      [(⟨"a", "e934a84adb052768", .File⟩ : HashRs.DiffBlob)] :=
  C3_manifests_sorted_by_hash.1 [.file "a" [0]]
    ("ec1931e8ab2efa8d", [⟨"a", "e934a84adb052768", .File⟩]) (by decide)

/-! ### C5 (amended): the builders agree on single-file directories -/

theorem resolvedGet_cons (q : HashRs.FsPath × HashRs.DiffBlob)
    (rest : List (HashRs.FsPath × HashRs.DiffBlob)) (p : HashRs.FsPath) :
    HashRs.resolvedGet (q :: rest) p =
      if q.1 = p then some q.2 else HashRs.resolvedGet rest p := by
  simp only [HashRs.resolvedGet, List.find?]
  by_cases h : q.1 = p
  · simp [h]
  · simp [h]

/-- C5 amended: for a source directory whose contents are a single
non-filtered file, the iterative builder (`create_directory_blob_file`) and
the recursive builder (`create_directory_blob_file_rec`) return identical
root hashes.  (For two or more files, or any subdirectory, they differ — see
the counterexample.) -/
theorem C5_single_file_agree (name : String) (content : List Nat) (rootName : String)
    (h : name ≠ ".DS_Store") :
    HashRs.iterRoot [.file name content] rootName 3 =
      some (some (HashRs.recRoot [.file name content])) := by
  simp [HashRs.iterRoot, HashRs.iterBuild, HashRs.iterLoop, HashRs.iterStep,
    HashRs.lookupEntries, HashRs.iterEntryLoop, HashRs.FsEntry.name, h,
    resolvedGet_cons, HashRs.resolvedGet, HashRs.resolvedInsert,
    HashRs.recRoot, HashRs.recDir, HashRs.recList, HashRs.recEntry,
    HashRs.sortByHash, List.insertionSort, HashRs.calculateFileHash]

/-- C5 witness: the amended statement at a concrete single-file tree. -/
theorem C5_witness :
    HashRs.iterRoot [.file "a" [0]] "r" 3 = some (some (HashRs.recRoot [.file "a" [0]])) :=
  C5_single_file_agree "a" [0] "r" (by decide)

/-! ### C4 (amended): readdir-order independence under distinct hashes -/

theorem recEntry_fst (e : HashRs.FsEntry) : (HashRs.recEntry e).1 = HashRs.entryBlob e := by
  cases e with
  | file n c => simp only [HashRs.recEntry, HashRs.entryBlob]
  | dir n es => simp only [HashRs.recEntry, HashRs.entryBlob, HashRs.recRoot, HashRs.recDir]

theorem blobsOf_cons (e : HashRs.FsEntry) (rest : List HashRs.FsEntry) :
    HashRs.blobsOf (e :: rest) =
      if e.name = ".DS_Store" then HashRs.blobsOf rest
      else HashRs.entryBlob e :: HashRs.blobsOf rest := by
  unfold HashRs.blobsOf
  by_cases hds : e.name = ".DS_Store"
  · simp only [HashRs.recList, if_pos hds]
  · simp only [HashRs.recList, if_neg hds, recEntry_fst]

theorem blobsOf_append (xs ys : List HashRs.FsEntry) :
    HashRs.blobsOf (xs ++ ys) = HashRs.blobsOf xs ++ HashRs.blobsOf ys := by
  induction xs with
  | nil => simp [HashRs.blobsOf, HashRs.recList]
  | cons e rest ih =>
    rw [List.cons_append, blobsOf_cons, blobsOf_cons]
    by_cases hds : e.name = ".DS_Store"
    · simp [hds, ih]
    · simp [hds, ih]

theorem sameEntry_name {a b : HashRs.FsEntry} (h : HashRs.SameEntry a b) :
    a.name = b.name := by
  cases h <;> rfl

theorem pairwiseDistinct_pairwise (l : List HashRs.DiffBlob)
    (h : HashRs.pairwiseDistinctHash l = true) :
    l.Pairwise (fun x y => x.hash ≠ y.hash) := by
  induction l with
  | nil => exact .nil
  | cons b rest ih =>
    simp only [HashRs.pairwiseDistinctHash, Bool.and_eq_true, List.all_eq_true,
      decide_eq_true_eq] at h
    exact List.Pairwise.cons (fun x hx => Ne.symm (h.1 x hx)) (ih h.2)

theorem sortByHash_eq_of_perm (l l' : List HashRs.DiffBlob) (hp : l.Perm l')
    (hd : l.Pairwise fun x y => x.hash ≠ y.hash) :
    HashRs.sortByHash l = HashRs.sortByHash l' := by
  have hsym : ∀ {x y : HashRs.DiffBlob}, x.hash ≠ y.hash → y.hash ≠ x.hash :=
    fun h => Ne.symm h
  have hd' : l'.Pairwise (fun x y => x.hash ≠ y.hash) := (hp.pairwise_iff hsym).mp hd
  have hpl : (HashRs.sortByHash l).Perm l := List.perm_insertionSort _ _
  have hpl' : (HashRs.sortByHash l').Perm l' := List.perm_insertionSort _ _
  have hdl : (HashRs.sortByHash l).Pairwise (fun x y => x.hash ≠ y.hash) :=
    (hpl.pairwise_iff hsym).mpr hd
  have hdl' : (HashRs.sortByHash l').Pairwise (fun x y => x.hash ≠ y.hash) :=
    (hpl'.pairwise_iff hsym).mpr hd'
  have hs := sortByHash_sorted l
  have hs' := sortByHash_sorted l'
  haveI : IsAntisymm HashRs.DiffBlob
      (fun a b => HashRs.hashLe a b ∧ a.hash ≠ b.hash) := by
    constructor
    intro a b hab hba
    exfalso
    apply hab.2
    have hdata : a.hash.data = b.hash.data :=
      charListLe_antisymm _ _ hab.1 hba.1
    exact congrArg String.mk hdata
  exact List.eq_of_perm_of_sorted (hpl.trans (hp.trans hpl'.symm))
    (hs.and hdl) (hs'.and hdl')

theorem fsEntry_sizeOf_pos (a : HashRs.FsEntry) : 0 < sizeOf a := by
  cases a <;> simp

theorem blobsOf_perm_of_sameDir :
    ∀ (k : Nat) (es es' : List HashRs.FsEntry), sizeOf es ≤ k →
      HashRs.SameDir es es' → HashRs.distinctList es = true →
      (HashRs.blobsOf es).Perm (HashRs.blobsOf es') := by
  intro k
  induction k with
  | zero =>
    intro es es' h hsd _
    cases hsd with
    | nil => exact .refl _
    | cons hab hrest => simp at h
  | succ k ih =>
    intro es es' hsz hsd hd
    cases hsd with
    | nil => exact .refl _
    | @cons a b l r1 r2 hab hrest =>
      have hname : a.name = b.name := sameEntry_name hab
      have hdl : HashRs.distinctList l = true := by
        simp only [HashRs.distinctList, Bool.and_eq_true] at hd
        exact hd.2
      have hde : HashRs.distinctEntry a = true := by
        simp only [HashRs.distinctList, Bool.and_eq_true] at hd
        exact hd.1
      have hsz2 := hsz
      simp only [List.cons.sizeOf_spec] at hsz2
      have hapos := fsEntry_sizeOf_pos a
      have hszl : sizeOf l ≤ k := by omega
      have hperm : (HashRs.blobsOf l).Perm (HashRs.blobsOf (r1 ++ r2)) :=
        ih l (r1 ++ r2) hszl hrest hdl
      by_cases hds : a.name = ".DS_Store"
      · rw [blobsOf_cons, if_pos hds, blobsOf_append, blobsOf_cons,
          if_pos (hname ▸ hds), ← blobsOf_append]
        exact hperm
      · have hblob : HashRs.entryBlob a = HashRs.entryBlob b := by
          cases hab with
          | file n c => rfl
          | @dir n es0 es0' hsub =>
            have hn : ¬(n = ".DS_Store") := by
              simpa [HashRs.FsEntry.name] using hds
            have hdd : HashRs.pairwiseDistinctHash (HashRs.blobsOf es0) = true ∧
                HashRs.distinctList es0 = true := by
              simp only [HashRs.distinctEntry, if_neg hn, Bool.and_eq_true] at hde
              exact hde
            have hsz0 : sizeOf es0 ≤ k := by
              simp only [HashRs.FsEntry.dir.sizeOf_spec] at hsz2
              omega
            have hsub_perm : (HashRs.blobsOf es0).Perm (HashRs.blobsOf es0') :=
              ih es0 es0' hsz0 hsub hdd.2
            have hsort : HashRs.sortByHash (HashRs.blobsOf es0) =
                HashRs.sortByHash (HashRs.blobsOf es0') :=
              sortByHash_eq_of_perm _ _ hsub_perm (pairwiseDistinct_pairwise _ hdd.1)
            simp only [HashRs.entryBlob, HashRs.recRoot, HashRs.recDir]
            have hthis : HashRs.sortByHash (HashRs.recList es0).1 =
                HashRs.sortByHash (HashRs.recList es0').1 := hsort
            rw [hthis]
        rw [blobsOf_cons, if_neg hds, blobsOf_append, blobsOf_cons,
          if_neg (hname ▸ hds), hblob]
        refine (hperm.cons _).trans ?_
        rw [blobsOf_append]
        exact List.perm_middle.symm

/-- C4 amended: the root hash of the recursive snapshot builder is invariant
under the `read_dir` enumeration order (`SameDir`, a recursive permutation of
the same contents) PROVIDED the records collected in every directory have
pairwise distinct hashes.  (With duplicate hashes the stable sort preserves
enumeration order and the hash differs — see the counterexample.) -/
theorem C4_root_hash_order_independent (es es' : List HashRs.FsEntry)
    (hsd : HashRs.SameDir es es') (hd : HashRs.distinctDeep es = true) :
    HashRs.recRoot es = HashRs.recRoot es' := by
  simp only [HashRs.distinctDeep, Bool.and_eq_true] at hd
  have hp := blobsOf_perm_of_sameDir (sizeOf es) es es' le_rfl hsd hd.2
  have heq := sortByHash_eq_of_perm _ _ hp (pairwiseDistinct_pairwise _ hd.1)
  simp only [HashRs.recRoot, HashRs.recDir]
  have hthis : HashRs.sortByHash (HashRs.recList es).1 =
      HashRs.sortByHash (HashRs.recList es').1 := heq
  rw [hthis]

/-- C4 counterexample: two enumeration orders of the same directory contents
(two files with EQUAL content, hence equal hashes) give different root
hashes, because the stable sort by hash keeps them in enumeration order. -/
theorem C4_counterexample :
    HashRs.SameDir [.file "a" [0], .file "b" [0]] [.file "b" [0], .file "a" [0]] ∧
    HashRs.recRoot [.file "a" [0], .file "b" [0]] ≠
      HashRs.recRoot [.file "b" [0], .file "a" [0]] := by
  constructor
  · exact @HashRs.SameDir.cons (.file "a" [0]) (.file "a" [0]) [.file "b" [0]]
      [.file "b" [0]] [] (HashRs.SameEntry.file "a" [0])
      (@HashRs.SameDir.cons (.file "b" [0]) (.file "b" [0]) [] [] []
        (HashRs.SameEntry.file "b" [0]) HashRs.SameDir.nil)
  · decide

/-- C4 witness: the amended statement at a concrete tree with distinct
hashes. -/
theorem C4_witness :
    HashRs.recRoot [.file "x" [0]] = HashRs.recRoot [.file "x" [0]] :=
  C4_root_hash_order_independent [.file "x" [0]] [.file "x" [0]]
    (@HashRs.SameDir.cons (.file "x" [0]) (.file "x" [0]) [] [] []
      (HashRs.SameEntry.file "x" [0]) HashRs.SameDir.nil)
    (by decide)

/-! ### C9 and C10 (amended): the blob record codec -/

theorem charWidth_pos (c : Char) : 1 ≤ Common.charWidth c := by
  simp only [Common.charWidth, utf8Char]
  split <;> (try split) <;> (try split) <;> simp

theorem charWidth_ascii {c : Char} (h : c.toNat < 128) : Common.charWidth c = 1 := by
  simp only [Common.charWidth, utf8Char, if_pos h]
  rfl

theorem byteLen_nil : Common.byteLen [] = 0 := rfl

theorem byteLen_cons (c : Char) (l : List Char) :
    Common.byteLen (c :: l) = Common.charWidth c + Common.byteLen l := by
  simp [Common.byteLen, Common.charWidth, utf8Bytes]

theorem byteLen_append (a b : List Char) :
    Common.byteLen (a ++ b) = Common.byteLen a + Common.byteLen b := by
  simp [Common.byteLen, utf8Bytes]

theorem splitAtByte_appendLen (a b : List Char) :
    Common.splitAtByte (a ++ b) (Common.byteLen a) = some (a, b) := by
  induction a with
  | nil => simp [byteLen_nil, Common.splitAtByte]
  | cons c a' ih =>
    have hw := charWidth_pos c
    rw [byteLen_cons, List.cons_append]
    obtain ⟨m, hm⟩ : ∃ m, Common.charWidth c + Common.byteLen a' = m + 1 :=
      ⟨Common.charWidth c + Common.byteLen a' - 1, by omega⟩
    rw [hm]
    simp only [Common.splitAtByte]
    rw [if_pos (by omega : Common.charWidth c ≤ m + 1)]
    have harg : m + 1 - Common.charWidth c = Common.byteLen a' := by omega
    rw [harg, ih]



theorem hexDigit_facts : ∀ d, d < 16 →
    Common.hexVal (hexDigit d) = some d ∧ (hexDigit d).toNat < 128 ∧
    ¬(hexDigit d = '+') ∧ ¬(hexDigit d = '-') ∧
    Common.isRustWhitespace (hexDigit d) = false := by decide

theorem hex02_eq {n : Nat} (h : n ≤ 255) :
    Common.hex02 n = [hexDigit (n / 16), hexDigit (n % 16)] := by
  simp [Common.hex02, (show n < 256 by omega)]

theorem fromStrRadix16_hex02 {n : Nat} (h : n ≤ 255) :
    Common.fromStrRadix16 (Common.hex02 n) = some n := by
  have h1 : n / 16 < 16 := by omega
  have h2 : n % 16 < 16 := by omega
  obtain ⟨hv1, _, hp1, hm1, _⟩ := hexDigit_facts _ h1
  obtain ⟨hv2, _, _, _, _⟩ := hexDigit_facts _ h2
  rw [hex02_eq h]
  simp only [Common.fromStrRadix16, if_neg hp1, if_neg hm1, Common.parseHexDigits,
    Common.parseHexAux, hv1, hv2]
  congr 1
  omega

theorem trim_wrap {c d : Char} (xs : List Char)
    (hc : Common.isRustWhitespace c = false) (hd : Common.isRustWhitespace d = false) :
    Common.trim (c :: xs ++ [d, '\n']) = c :: xs ++ [d] := by
  have hnl : Common.isRustWhitespace '\n' = true := by decide
  simp only [Common.trim]
  rw [show (c :: xs ++ [d, '\n'] : List Char) = c :: (xs ++ [d, '\n']) from rfl]
  rw [List.dropWhile_cons_of_neg (by simp [hc])]
  rw [show (c :: (xs ++ [d, '\n']) : List Char) = (c :: xs ++ [d]) ++ ['\n'] from by simp]
  rw [List.reverse_append]
  simp only [List.reverse_cons, List.reverse_nil, List.nil_append, List.singleton_append]
  rw [List.dropWhile_cons_of_pos (by simp [hnl])]
  rw [show ((c :: xs ++ [d]).reverse : List Char) = d :: (c :: xs).reverse from by simp]
  rw [List.dropWhile_cons_of_neg (by simp [hd])]
  simp



theorem byteLen_hex02 {n : Nat} (h : n ≤ 255) : Common.byteLen (Common.hex02 n) = 2 := by
  rw [hex02_eq h]
  have h1 := (hexDigit_facts (n / 16) (by omega)).2.1
  have h2 := (hexDigit_facts (n % 16) (by omega)).2.1
  rw [byteLen_cons, byteLen_cons, byteLen_nil, charWidth_ascii h1, charWidth_ascii h2]

theorem sliceBytes_prefix (a rest : List Char) :
    Common.sliceBytes (a ++ rest) 0 (Common.byteLen a) = some a := by
  simp only [Common.sliceBytes, Common.splitAtByte, Nat.sub_zero, splitAtByte_appendLen]

theorem sliceBytes_mid (a b rest : List Char) :
    Common.sliceBytes (a ++ (b ++ rest)) (Common.byteLen a)
      (Common.byteLen a + Common.byteLen b) = some b := by
  simp only [Common.sliceBytes, splitAtByte_appendLen]
  rw [show Common.byteLen a + Common.byteLen b - Common.byteLen a = Common.byteLen b from by omega]
  rw [splitAtByte_appendLen]

theorem fromStr_display_aux (c : Char) (n0 hsh str : List Char) (tB : Nat) (z : Char)
    (hc : Common.isRustWhitespace c = false)
    (hn : Common.byteLen (c :: n0) ≤ 255)
    (hh : Common.byteLen hsh ≤ 255)
    (htB : tB ≤ 255)
    (hstrB : Common.byteLen str = tB)
    (hhex : Common.hex02 tB = ['0', z])
    (hz : Common.isRustWhitespace z = false)
    (hz128 : z.toNat < 128) :
    Common.fromStr ((c :: n0) ++ [' '] ++ hsh ++ [' '] ++ str ++ [' '] ++
        Common.hex02 (Common.byteLen (c :: n0)) ++ Common.hex02 (Common.byteLen hsh) ++
        ['0', z, '\n']) =
      (if str = "directory".data then .ok ⟨c :: n0, hsh, .Directory⟩
       else if str = "file".data then .ok ⟨c :: n0, hsh, .File⟩
       else .err .InvalidType) := by
  have hXS : ((c :: n0) ++ [' '] ++ hsh ++ [' '] ++ str ++ [' '] ++
      Common.hex02 (Common.byteLen (c :: n0)) ++ Common.hex02 (Common.byteLen hsh) ++
      ['0', z, '\n'] : List Char) =
      c :: (n0 ++ [' '] ++ hsh ++ [' '] ++ str ++ [' '] ++
        Common.hex02 (Common.byteLen (c :: n0)) ++ Common.hex02 (Common.byteLen hsh) ++
        ['0']) ++ [z, '\n'] := by
    simp
  have htrim := trim_wrap (n0 ++ [' '] ++ hsh ++ [' '] ++ str ++ [' '] ++
      Common.hex02 (Common.byteLen (c :: n0)) ++ Common.hex02 (Common.byteLen hsh) ++
      ['0']) hc hz
  rw [hXS]
  have hPH : (c :: (n0 ++ [' '] ++ hsh ++ [' '] ++ str ++ [' '] ++
      Common.hex02 (Common.byteLen (c :: n0)) ++ Common.hex02 (Common.byteLen hsh) ++
      ['0']) ++ [z] : List Char) =
      ((c :: n0) ++ [' '] ++ hsh ++ [' '] ++ str ++ [' ']) ++
        (Common.hex02 (Common.byteLen (c :: n0)) ++ Common.hex02 (Common.byteLen hsh) ++
          ['0', z]) := by
    simp
  have hsp : Common.byteLen [' '] = 1 := by decide
  have h0z : Common.byteLen ['0', z] = 2 := by
    rw [byteLen_cons, byteLen_cons, byteLen_nil, charWidth_ascii (by decide : ('0' : Char).toNat < 128),
      charWidth_ascii hz128]
  have hbP : Common.byteLen ((c :: n0) ++ [' '] ++ hsh ++ [' '] ++ str ++ [' ']) =
      Common.byteLen (c :: n0) + Common.byteLen hsh + tB + 3 := by
    simp only [byteLen_append, hsp, hstrB]
    omega
  have hb6 : Common.byteLen (Common.hex02 (Common.byteLen (c :: n0)) ++
      Common.hex02 (Common.byteLen hsh) ++ ['0', z]) = 6 := by
    simp only [byteLen_append, byteLen_hex02 hn, byteLen_hex02 hh, h0z]
  simp only [Common.fromStr]
  rw [htrim, hPH, byteLen_append, hbP, hb6]
  rw [if_neg (by omega : ¬(Common.byteLen (c :: n0) + Common.byteLen hsh + tB + 3 + 6 < 6))]
  rw [show Common.byteLen (c :: n0) + Common.byteLen hsh + tB + 3 + 6 - 6 =
      Common.byteLen ((c :: n0) ++ [' '] ++ hsh ++ [' '] ++ str ++ [' ']) from by omega]
  rw [splitAtByte_appendLen]
  dsimp only
  have hsA : Common.sliceBytes (Common.hex02 (Common.byteLen (c :: n0)) ++
      Common.hex02 (Common.byteLen hsh) ++ ['0', z]) 0 2 =
      some (Common.hex02 (Common.byteLen (c :: n0))) := by
    have h := sliceBytes_prefix (Common.hex02 (Common.byteLen (c :: n0)))
      (Common.hex02 (Common.byteLen hsh) ++ ['0', z])
    rw [byteLen_hex02 hn] at h
    simpa [List.append_assoc] using h
  have hsB : Common.sliceBytes (Common.hex02 (Common.byteLen (c :: n0)) ++
      Common.hex02 (Common.byteLen hsh) ++ ['0', z]) 2 4 =
      some (Common.hex02 (Common.byteLen hsh)) := by
    have h := sliceBytes_mid (Common.hex02 (Common.byteLen (c :: n0)))
      (Common.hex02 (Common.byteLen hsh)) ['0', z]
    rw [byteLen_hex02 hn, byteLen_hex02 hh] at h
    simpa [List.append_assoc] using h
  have hsC : Common.sliceBytes (Common.hex02 (Common.byteLen (c :: n0)) ++
      Common.hex02 (Common.byteLen hsh) ++ ['0', z]) 4 6 = some ['0', z] := by
    have h := sliceBytes_mid (Common.hex02 (Common.byteLen (c :: n0)) ++
      Common.hex02 (Common.byteLen hsh)) ['0', z] []
    rw [byteLen_append, byteLen_hex02 hn, byteLen_hex02 hh, h0z] at h
    simpa using h
  rw [hsA, hsB, hsC]
  dsimp only
  have hradz : Common.fromStrRadix16 ['0', z] = some tB := by
    have h := fromStrRadix16_hex02 htB
    rwa [hhex] at h
  rw [fromStrRadix16_hex02 hn, fromStrRadix16_hex02 hh, hradz]
  dsimp only
  rw [if_neg (by omega : ¬(Common.byteLen (c :: n0) + Common.byteLen hsh + tB + 3 + 6 <
    Common.byteLen (c :: n0) + Common.byteLen hsh + tB + 3))]
  have hPassoc : ((c :: n0) ++ [' '] ++ hsh ++ [' '] ++ str ++ [' '] : List Char) =
      (c :: n0) ++ ([' '] ++ hsh ++ [' '] ++ str ++ [' ']) := by simp
  rw [hPassoc, splitAtByte_appendLen]
  dsimp only
  rw [show ([' '] ++ hsh ++ [' '] ++ str ++ [' '] : List Char) =
    ' ' :: (hsh ++ ([' '] ++ str ++ [' '])) from by simp]
  rw [show Common.dropByte1 (' ' :: (hsh ++ ([' '] ++ str ++ [' ']))) =
    some (hsh ++ ([' '] ++ str ++ [' '])) from by simp [Common.dropByte1, Common.charWidth, utf8Char]]
  dsimp only
  rw [splitAtByte_appendLen]
  dsimp only
  rw [show ([' '] ++ str ++ [' '] : List Char) = ' ' :: (str ++ [' ']) from by simp]
  rw [show Common.dropByte1 (' ' :: (str ++ [' '])) = some (str ++ [' ']) from by
    simp [Common.dropByte1, Common.charWidth, utf8Char]]
  dsimp only
  rw [← hstrB, splitAtByte_appendLen]



/-- C9 amended: for every record whose name is non-empty and does not start
with whitespace, and whose name and hash are each at most 255 UTF-8 bytes,
parsing the `Display` output reproduces the record.  (Without the byte-length
bounds the claim fails — see the counterexample.) -/
theorem C9_roundtrip_bounded (c : Char) (n0 hsh : List Char) (bt : Common.DiffBlobType)
    (hc : Common.isRustWhitespace c = false)
    (hn : Common.byteLen (c :: n0) ≤ 255)
    (hh : Common.byteLen hsh ≤ 255) :
    Common.fromStr (Common.DiffBlob.display ⟨c :: n0, hsh, bt⟩) = .ok ⟨c :: n0, hsh, bt⟩ := by
  cases bt
  case Directory =>
    have h9 : Common.hex02 (Common.byteLen (Common.DiffBlobType.Directory.str)) =
        ['0', '9'] := by decide
    have hdisp : Common.DiffBlob.display ⟨c :: n0, hsh, .Directory⟩ =
        (c :: n0) ++ [' '] ++ hsh ++ [' '] ++ "directory".data ++ [' '] ++
          Common.hex02 (Common.byteLen (c :: n0)) ++ Common.hex02 (Common.byteLen hsh) ++
          ['0', '9', '\n'] := by
      simp [Common.DiffBlob.display, Common.DiffBlobType.str] at h9 ⊢
      simp [h9]
    rw [hdisp, fromStr_display_aux c n0 hsh ("directory".data) 9 '9' hc hn hh (by omega)
      (by decide) (by decide) (by decide) (by decide)]
    simp
  case File =>
    have h4 : Common.hex02 (Common.byteLen (Common.DiffBlobType.File.str)) =
        ['0', '4'] := by decide
    have hdisp : Common.DiffBlob.display ⟨c :: n0, hsh, .File⟩ =
        (c :: n0) ++ [' '] ++ hsh ++ [' '] ++ "file".data ++ [' '] ++
          Common.hex02 (Common.byteLen (c :: n0)) ++ Common.hex02 (Common.byteLen hsh) ++
          ['0', '4', '\n'] := by
      simp [Common.DiffBlob.display, Common.DiffBlobType.str] at h4 ⊢
      simp [h4]
    rw [hdisp, fromStr_display_aux c n0 hsh ("file".data) 4 '4' hc hn hh (by omega)
      (by decide) (by decide) (by decide) (by decide)]
    simp



theorem mem_trim {c : Char} {l : List Char} (h : c ∈ Common.trim l) : c ∈ l := by
  simp only [Common.trim, List.mem_reverse] at h
  have h1 := (List.dropWhile_sublist (l := (l.dropWhile Common.isRustWhitespace).reverse)
    (p := Common.isRustWhitespace)).mem h
  rw [List.mem_reverse] at h1
  exact (List.dropWhile_sublist (l := l) (p := Common.isRustWhitespace)).mem h1

theorem byteLen_ascii (s : List Char) (h : ∀ c ∈ s, c.toNat < 128) :
    Common.byteLen s = s.length := by
  induction s with
  | nil => rfl
  | cons c t ih =>
    rw [byteLen_cons, charWidth_ascii (h c (List.mem_cons_self ..)), ih (fun x hx => h x (List.mem_cons_of_mem _ hx))]
    simp [Nat.add_comm]

theorem splitAtByte_ascii (s : List Char) (h : ∀ c ∈ s, c.toNat < 128) :
    ∀ n, n ≤ s.length → Common.splitAtByte s n = some (s.take n, s.drop n) := by
  induction s with
  | nil =>
    intro n hn
    have : n = 0 := by simpa using hn
    subst this
    rfl
  | cons c t ih =>
    intro n hn
    cases n with
    | zero => rfl
    | succ m =>
      have hw : Common.charWidth c = 1 := charWidth_ascii (h c (List.mem_cons_self ..))
      simp only [Common.splitAtByte, hw]
      rw [if_pos (by omega)]
      rw [show m + 1 - 1 = m from by omega]
      rw [ih (fun x hx => h x (List.mem_cons_of_mem _ hx)) m (by simpa using hn)]
      rfl

theorem dropByte1_ascii (c : Char) (t : List Char) (h : c.toNat < 128) :
    Common.dropByte1 (c :: t) = some t := by
  simp [Common.dropByte1, charWidth_ascii h]



theorem sliceBytes_ascii (s : List Char) (h : ∀ c ∈ s, c.toNat < 128) (a b : Nat)
    (hab : a ≤ b) (hb : b ≤ s.length) :
    Common.sliceBytes s a b = some ((s.drop a).take (b - a)) := by
  simp only [Common.sliceBytes]
  rw [splitAtByte_ascii s h a (le_trans hab hb)]
  dsimp only
  rw [splitAtByte_ascii _ (fun c hc => h c (List.drop_subset _ _ hc)) (b - a)
    (by simp [List.length_drop]; omega)]

/-- C10 amended: `DiffBlob::from_str` cannot panic on an ASCII input whose
declared length fields satisfy the STRONGER bound
`name_length + hash_length + type_length + 8 <= trimmed length` (the check in
the code tests only `... + 3 <= length` and does not prevent panics — see the
counterexample). -/
theorem C10_no_panic_when_bounded (l : List Char)
    (h128 : ∀ c ∈ l, c.toNat < 128)
    (hbound : ∀ nh hh th, Common.declaredLengths l = some (nh, hh, th) →
      nh + hh + th + 8 ≤ Common.byteLen (Common.trim l)) :
    Common.fromStr l ≠ .panicked := by
  have hA : ∀ c ∈ Common.trim l, c.toNat < 128 := fun c hc => h128 c (mem_trim hc)
  have hLen : Common.byteLen (Common.trim l) = (Common.trim l).length :=
    byteLen_ascii _ hA
  intro hpan
  simp only [Common.fromStr] at hpan
  split at hpan
  · simp at hpan
  next h6 =>
  rw [splitAtByte_ascii _ hA _ (by omega)] at hpan
  dsimp only at hpan
  have hlenPart : ((Common.trim l).drop (Common.byteLen (Common.trim l) - 6)).length = 6 := by
    rw [List.length_drop]
    omega
  have hAdrop : ∀ c ∈ (Common.trim l).drop (Common.byteLen (Common.trim l) - 6),
      c.toNat < 128 := fun c hc => hA c (List.drop_subset _ _ hc)
  rw [sliceBytes_ascii _ hAdrop 0 2 (by omega) (by omega),
    sliceBytes_ascii _ hAdrop 2 4 (by omega) (by omega),
    sliceBytes_ascii _ hAdrop 4 6 (by omega) (by omega)] at hpan
  dsimp only at hpan
  split at hpan
  · simp at hpan
  next nl hr1 =>
  split at hpan
  · simp at hpan
  next hl hr2 =>
  split at hpan
  · simp at hpan
  next tl hr3 =>
  split at hpan
  · simp at hpan
  next h3 =>
  have hdecl : Common.declaredLengths l = some (nl, hl, tl) := by
    simp only [Common.declaredLengths]
    rw [if_neg h6]
    rw [splitAtByte_ascii _ hA _ (by omega)]
    dsimp only
    rw [sliceBytes_ascii _ hAdrop 0 2 (by omega) (by omega),
      sliceBytes_ascii _ hAdrop 2 4 (by omega) (by omega),
      sliceBytes_ascii _ hAdrop 4 6 (by omega) (by omega)]
    dsimp only
    rw [hr1, hr2, hr3]
  have hB := hbound nl hl tl hdecl
  have hAtake : ∀ c ∈ (Common.trim l).take (Common.byteLen (Common.trim l) - 6),
      c.toNat < 128 := fun c hc => hA c (List.take_subset _ _ hc)
  have hlentake : ((Common.trim l).take (Common.byteLen (Common.trim l) - 6)).length =
      Common.byteLen (Common.trim l) - 6 := by
    rw [List.length_take]
    omega
  rw [splitAtByte_ascii _ hAtake nl (by omega)] at hpan
  dsimp only at hpan
  have hlenrest : (((Common.trim l).take (Common.byteLen (Common.trim l) - 6)).drop nl).length =
      Common.byteLen (Common.trim l) - 6 - nl := by
    rw [List.length_drop, hlentake]
  cases hrl : ((Common.trim l).take (Common.byteLen (Common.trim l) - 6)).drop nl with
  | nil =>
    rw [hrl] at hlenrest
    simp at hlenrest
    omega
  | cons r0 rt =>
  rw [hrl] at hpan hlenrest
  simp only [List.length_cons] at hlenrest
  have hArest : ∀ c ∈ (r0 :: rt), c.toNat < 128 := by
    rw [← hrl]
    exact fun c hc => hAtake c (List.drop_subset _ _ hc)
  rw [dropByte1_ascii r0 rt (hArest r0 (List.mem_cons_self ..))] at hpan
  dsimp only at hpan
  have hArt : ∀ c ∈ rt, c.toNat < 128 :=
    fun c hc => hArest c (List.mem_cons_of_mem _ hc)
  rw [splitAtByte_ascii rt hArt hl (by omega)] at hpan
  dsimp only at hpan
  have hlenrt2 : (rt.drop hl).length = rt.length - hl := by rw [List.length_drop]
  cases hrl2 : rt.drop hl with
  | nil =>
    rw [hrl2] at hlenrt2
    simp at hlenrt2
    omega
  | cons r1 rt2 =>
  rw [hrl2] at hpan hlenrt2
  simp only [List.length_cons] at hlenrt2
  have hArest2 : ∀ c ∈ (r1 :: rt2), c.toNat < 128 := by
    rw [← hrl2]
    exact fun c hc => hArt c (List.drop_subset _ _ hc)
  rw [dropByte1_ascii r1 rt2 (hArest2 r1 (List.mem_cons_self ..))] at hpan
  dsimp only at hpan
  rw [splitAtByte_ascii rt2 (fun c hc => hArest2 c (List.mem_cons_of_mem _ hc)) tl
    (by omega)] at hpan
  dsimp only at hpan
  split at hpan
  · simp at hpan
  split at hpan
  · simp at hpan
  · simp at hpan


/-- C9 witness: the amended round-trip applied to the claim's own example
record, whose `Display` form is the pinned line `"name hash directory 040409\n"`. -/
theorem C9_witness :
    Common.DiffBlob.display ⟨"name".data, "hash".data, .Directory⟩ =
      "name hash directory 040409\n".data ∧
    Common.fromStr (Common.DiffBlob.display ⟨"name".data, "hash".data, .Directory⟩) =
      .ok ⟨"name".data, "hash".data, .Directory⟩ :=
  ⟨by decide, C9_roundtrip_bounded 'n' "ame".data "hash".data .Directory
    (by decide) (by decide) (by decide)⟩

/-- C10 witness: the amended no-panic statement at a concrete well-formed
ASCII line. -/
theorem C10_witness :
    Common.fromStr "name hash file 040404".data ≠ .panicked :=
  C10_no_panic_when_bounded "name hash file 040404".data (by decide)
    (fun nh hh th h => by
      have hd : Common.declaredLengths "name hash file 040404".data = some (4, 4, 4) := by
        decide
      rw [hd] at h
      simp only [Option.some.injEq, Prod.mk.injEq] at h
      obtain ⟨h1, h2, h3⟩ := h
      subst h1
      subst h2
      subst h3
      decide)

end Ditiear
